import Mathlib

/-!
# bits-location-tracker: presence-interval compaction

A shallow embedding of `main.go` (the `/log` handler, `MatchLocation`,
`RecordNewPosition`, `GetLastPosition`) and the properties of the timeline
it keeps in the `v1.location` collection.

Conventions of the embedding:

* a Go `time.Time` is the instant it denotes, counted in nanoseconds since the
  Unix epoch; a `time.Duration` is a count of nanoseconds kept in an `int64`;
* a BSON UTC datetime is a count of milliseconds since the Unix epoch: this is
  the resolution at which `startDate` and `endDate` are stored;
* the collection is the list of its documents in natural (insertion) order;
* what the libraries leave open is an explicit argument: the document a sorted
  `FindOne` returns among ties, the clock `time.Now()`, the `ObjectID` the
  driver draws for an inserted document, the result of `time.Parse` and of
  `strconv.ParseFloat`, and the great-circle distance;
* a `panic` is the result `none`.  Storage failures are not modelled: every
  database call is taken to succeed;
* requests are handled one after the other: concurrent calls of
  `RecordNewPosition` are not modelled.
-/

namespace LocationTracker

/-! ## Time (package `time`) -/

/-! A `time.Time` is carried as an `Int`, the nanoseconds from the Unix epoch to
the instant it denotes; a `time.Duration` as an `Int`, its nanoseconds. -/

/-- Largest `time.Duration`, `1<<63 - 1` nanoseconds (about 292 years). -/
def maxDuration : Int := 2 ^ 63 - 1

/-- Smallest `time.Duration`, `-1 << 63` nanoseconds. -/
def minDuration : Int := -(2 ^ 63)

/-- The constant `time.Hour`, in nanoseconds. -/
def Hour : Int := 3600000000000

/-- Go `t.After(u)`: the instant `t` is strictly later than `u`. -/
def Time.After (t u : Int) : Bool := decide (u < t)

/-- Go `t.Sub(u)`: the duration `t - u`, replaced by the largest (smallest)
duration when the difference does not fit an `int64` of nanoseconds. -/
def Time.Sub (t u : Int) : Int :=
  if maxDuration < t - u then maxDuration
  else if t - u < minDuration then minDuration
  else t - u

/-- Go `d.Milliseconds()`: `int64(d) / 1e6`, the integer quotient truncated
toward zero. -/
def Duration.Milliseconds (d : Int) : Int := Int.tdiv d 1000000

/-! ## The `v1.location` collection -/

/-! A BSON UTC datetime is carried as an `Int`, the milliseconds from the Unix
epoch to the instant it denotes. -/

/-- Encoding of a `time.Time` as a BSON datetime: `t.Unix()*1000 +
t.Nanosecond()/1e6`, the instant rounded down to a whole millisecond. -/
def NewDateTimeFromTime (t : Int) : Int := t / 1000000

/-- Decoding of a BSON datetime into a `time.Time`. -/
def DateTime.Time (dt : Int) : Int := dt * 1000000

/-- A document of the collection, as written by `RecordNewPosition`
(`_id`, `location`, `startDate`, `endDate`, `duration`, `_fetchDate`). -/
structure Document where
  id : Nat
  location : String
  startDate : Int
  endDate : Int
  duration : Int
  fetchDate : Int
  deriving DecidableEq, Repr

/-- Go `PositionRecord`: what `GetLastPosition` decodes from a document. -/
structure PositionRecord where
  Id : Nat
  Location : String
  StartDate : Int
  EndDate : Int
  deriving DecidableEq, Repr

/-- Decoding of a document into a `PositionRecord` (`res.Decode(&record)`): the
keys `_id`, `location`, `startDate` and `endDate` fill the fields `Id`,
`Location`, `StartDate` and `EndDate`. -/
def Document.Decode (d : Document) : PositionRecord :=
  ⟨d.id, d.location, DateTime.Time d.startDate, DateTime.Time d.endDate⟩

/-- Contract of `FindOne` with the sort `startDate: -1`: no document on the
empty collection, otherwise a document of the collection whose `startDate` is
maximal.  Which one is returned among several of maximal `startDate` is left
open. -/
def SortsByStartDateDesc (findOne : List Document → Option Document) : Prop :=
  ∀ docs : List Document,
    match findOne docs with
    | none => docs = []
    | some d => d ∈ docs ∧ ∀ e ∈ docs, e.startDate ≤ d.startDate

/-- A sorted `FindOne` that keeps the earliest stored document among those of
maximal `startDate`. -/
def findOneFirst : List Document → Option Document
  | [] => none
  | d :: ds =>
    match findOneFirst ds with
    | none => some d
    | some e => if d.startDate < e.startDate then some e else some d

/-- A sorted `FindOne` that keeps the latest stored document among those of
maximal `startDate`. -/
def findOneLast : List Document → Option Document
  | [] => none
  | d :: ds =>
    match findOneLast ds with
    | none => some d
    | some e => if e.startDate < d.startDate then some d else some e

/-- Go `GetLastPosition`: the decoded result of the sorted `FindOne`, `nil`
(here `none`) when the collection holds no document. -/
def GetLastPosition (findOne : List Document → Option Document)
    (docs : List Document) : Option PositionRecord :=
  match findOne docs with
  | none => none
  | some d => some d.Decode

/-- `InsertOne` of the document built by `RecordNewPosition`: the document is
appended with the identifier drawn by the driver, its times encoded as BSON
datetimes. -/
def InsertOne (docs : List Document) (newId : Nat) (location : String)
    (startDate endDate : Int) (duration : Int) (fetchDate : Int) : List Document :=
  docs ++ [⟨newId, location, NewDateTimeFromTime startDate, NewDateTimeFromTime endDate,
    duration, NewDateTimeFromTime fetchDate⟩]

/-- `UpdateOne` with the filter `_id = id` and the update
`$set: endDate, duration`: the first document with that identifier gets the
two fields, nothing else changes. -/
def UpdateOne : List Document → Nat → Int → Int → List Document
  | [], _, _, _ => []
  | d :: ds, id, endDate, duration =>
    if d.id = id then
      ⟨d.id, d.location, d.startDate, NewDateTimeFromTime endDate, duration, d.fetchDate⟩ :: ds
    else d :: UpdateOne ds id endDate duration

/-! ## `RecordNewPosition` -/

/-- The write `RecordNewPosition` issues for one observation. -/
inductive Write where
  | skip
  | insertOne (location : String) (startDate endDate : Int) (duration : Int) (fetchDate : Int)
  | updateOne (id : Nat) (endDate : Int) (duration : Int)
  deriving DecidableEq, Repr

/-- Lines 113-153 of `main.go`: the write chosen from the last position, the
location and the parsed record date. -/
def chooseWrite (lastPosition : Option PositionRecord) (location : String)
    (recordDate now : Int) : Write :=
  match lastPosition with
  | none => Write.insertOne location recordDate recordDate 0 now
  | some last =>
    if Time.After last.EndDate recordDate then Write.skip
    else if last.Location ≠ location ∨ Time.Sub recordDate last.EndDate > 3 * Hour then
      Write.insertOne location recordDate recordDate 0 now
    else
      Write.updateOne last.Id recordDate (Duration.Milliseconds (Time.Sub recordDate last.StartDate))

/-- Effect of a write on the collection. -/
def Write.run (w : Write) (docs : List Document) (newId : Nat) : List Document :=
  match w with
  | Write.skip => docs
  | Write.insertOne location startDate endDate duration fetchDate =>
    InsertOne docs newId location startDate endDate duration fetchDate
  | Write.updateOne id endDate duration => UpdateOne docs id endDate duration

/-- Go `RecordNewPosition`.  `timestamp` is carried as the result of
`time.Parse(time.RFC3339, timestamp)`, `none` when parsing fails, in which
case the function panics (result `none`) before reading the collection. -/
def RecordNewPosition (findOne : List Document → Option Document) (docs : List Document)
    (location : String) (timestamp : Option Int) (now : Int) (newId : Nat) :
    Option (List Document) :=
  match timestamp with
  | none => none
  | some recordDate =>
    some ((chooseWrite (GetLastPosition findOne docs) location recordDate now).run docs newId)

/-- Collections produced from the empty one by calls of `RecordNewPosition`,
one observation at a time.  Each call may see any valid sorted `FindOne` that
satisfies `ok` on the collection it is made on, any clock value, and an
`ObjectID` not yet in the collection. -/
inductive ReachableWhen (ok : (List Document → Option Document) → List Document → Prop) :
    List Document → Prop where
  | empty : ReachableWhen ok []
  | record {docs docs2 : List Document} (findOne : List Document → Option Document)
      (location : String) (timestamp : Option Int) (now : Int) (newId : Nat) :
      ReachableWhen ok docs → ok findOne docs → SortsByStartDateDesc findOne →
      newId ∉ docs.map Document.id →
      RecordNewPosition findOne docs location timestamp now newId = some docs2 →
      ReachableWhen ok docs2

/-- Collections reachable from the empty one by calls of `RecordNewPosition`,
whatever the sorted `FindOne` returns among documents of maximal `startDate`. -/
def Reachable (docs : List Document) : Prop := ReachableWhen (fun _ _ => True) docs

/-- The sorted `FindOne` returns, among the documents of maximal `startDate`,
the earliest stored one; this is its answer whenever only one document has
the maximal `startDate`. -/
def EarliestOfTied (findOne : List Document → Option Document) (docs : List Document) : Prop :=
  findOne docs = findOneFirst docs

/-- The sorted `FindOne` never passes over a document that has already been
extended: if a document of maximal `startDate` ends after it starts, that
document is the one returned.  Among documents of maximal `startDate` that
all have zero length, any may be returned. -/
def NeverPassesOverExtended (findOne : List Document → Option Document)
    (docs : List Document) : Prop :=
  ∀ I : Document, findOne docs = some I →
    ∀ d ∈ docs, d.startDate = I.startDate → d.startDate < d.endDate → d = I

/-- No two intervals of the collection overlap: of any two, one ends no later
than the other starts. -/
def NonOverlapping (docs : List Document) : Prop :=
  ∀ a ∈ docs, ∀ b ∈ docs, a ≠ b → a.endDate ≤ b.startDate ∨ b.endDate ≤ a.startDate

/-- A sequence of intervals in non-decreasing `startDate` order in which each
interval ends no later than the next one starts. -/
def Timeline (l : List Document) : Prop :=
  l.Pairwise (fun a b => a.startDate ≤ b.startDate) ∧
    l.Chain' (fun a b => a.endDate ≤ b.startDate)

/-- The order of intervals by `startDate`, ties by `endDate`. -/
def startsBefore (a b : Document) : Prop :=
  a.startDate < b.startDate ∨ (a.startDate = b.startDate ∧ a.endDate ≤ b.endDate)

instance startsBefore.decidable : DecidableRel startsBefore := fun a b => by
  unfold startsBefore
  exact inferInstance

instance startsBefore.total : IsTotal Document startsBefore :=
  ⟨fun a b => by unfold startsBefore; omega⟩

instance startsBefore.trans : IsTrans Document startsBefore :=
  ⟨fun a b c hab hbc => by unfold startsBefore at *; omega⟩

/-- How a document `a` stands to a document `b` stored after it when ties go
to the earliest stored document: `b` starts no earlier than `a`; if it starts
later, then after the end of `a`; if it starts at the same time, it has zero
length. -/
def StoredBefore (a b : Document) : Prop :=
  a.startDate ≤ b.startDate ∧ (a.startDate < b.startDate → a.endDate ≤ b.startDate) ∧
    (a.startDate = b.startDate → b.endDate = b.startDate)

/-! ## `float64` -/

/-- A Go `float64` (IEEE-754 binary64): not-a-number, an infinity with its
sign, or a finite value, carried as the rational it denotes.  The two zeros
denote the same rational; no operation below tells them apart. -/
inductive Float64 where
  | nan
  | inf (negative : Bool)
  | fin (q : ℚ)
  deriving DecidableEq

/-- Nearest integer, ties to the even one. -/
def roundTiesToEven (x : ℚ) : ℤ :=
  if x - ⌊x⌋ < 1 / 2 then ⌊x⌋
  else if 1 / 2 < x - ⌊x⌋ then ⌊x⌋ + 1
  else if ⌊x⌋ % 2 = 0 then ⌊x⌋ else ⌊x⌋ + 1

/-- Exponent of the binade of `q`, not below that of the subnormals. -/
def Float64.exponent (q : ℚ) : ℤ := max (Int.log 2 |q|) (-1022)

/-- The value `q` rounded to the 53-bit significand of its binade, ties to
even. -/
def Float64.nearest (q : ℚ) : ℚ :=
  roundTiesToEven (q / 2 ^ (Float64.exponent q - 52)) * 2 ^ (Float64.exponent q - 52)

/-- The `float64` an exact result `q` is rounded to: the nearest
representable value, an infinity when that is `2^1024` or more in
magnitude. -/
def Float64.ofRat (q : ℚ) : Float64 :=
  if (2 : ℚ) ^ (1024 : ℕ) ≤ |Float64.nearest q| then Float64.inf (decide (q < 0))
  else Float64.fin (Float64.nearest q)

/-- Go `x + y` on `float64`. -/
def Float64.add : Float64 → Float64 → Float64
  | Float64.nan, _ => Float64.nan
  | _, Float64.nan => Float64.nan
  | Float64.inf s, Float64.inf t => if s = t then Float64.inf s else Float64.nan
  | Float64.inf s, Float64.fin _ => Float64.inf s
  | Float64.fin _, Float64.inf t => Float64.inf t
  | Float64.fin a, Float64.fin b => Float64.ofRat (a + b)

/-- Go `x * y` on `float64`. -/
def Float64.mul : Float64 → Float64 → Float64
  | Float64.nan, _ => Float64.nan
  | _, Float64.nan => Float64.nan
  | Float64.inf s, Float64.inf t => Float64.inf (s != t)
  | Float64.inf s, Float64.fin b =>
    if b = 0 then Float64.nan else Float64.inf (s != decide (b < 0))
  | Float64.fin a, Float64.inf t =>
    if a = 0 then Float64.nan else Float64.inf (decide (a < 0) != t)
  | Float64.fin a, Float64.fin b => Float64.ofRat (a * b)

/-- Go `x < y` on `float64`: false as soon as one side is not a number. -/
def Float64.lt : Float64 → Float64 → Bool
  | Float64.nan, _ => false
  | _, Float64.nan => false
  | Float64.inf s, Float64.inf t => s && !t
  | Float64.inf s, Float64.fin _ => s
  | Float64.fin _, Float64.inf t => !t
  | Float64.fin a, Float64.fin b => decide (a < b)

/-- Go `x <= y` on `float64`: false as soon as one side is not a number. -/
def Float64.le : Float64 → Float64 → Bool
  | Float64.nan, _ => false
  | _, Float64.nan => false
  | Float64.inf s, Float64.inf t => s || !t
  | Float64.inf s, Float64.fin _ => s
  | Float64.fin _, Float64.inf t => !t
  | Float64.fin a, Float64.fin b => decide (a ≤ b)

/-! ## `MatchLocation` -/

/-- The type `haversine.Coord`. -/
structure Coord where
  Lat : Float64
  Lon : Float64

/-- Go `Place`. -/
structure Place where
  Center : Coord
  Radius : Float64
  Name : String

/-- Go `Distance`: the kilometres returned by `haversine.Distance` (its second
result), times 1000.  The library function is the argument `haversine`. -/
def Distance (haversine : Coord → Coord → Float64 × Float64) (a b : Coord) : Float64 :=
  Float64.mul (Float64.fin 1000) (haversine a b).2

/-- Go `MatchLocation`. -/
def MatchLocation (haversine : Coord → Coord → Float64 × Float64) (lat lon acc : Float64) :
    List Place → String
  | [] => "World"
  | place :: places =>
    if Float64.lt (Distance haversine place.Center ⟨lat, lon⟩) (Float64.add place.Radius acc)
    then place.Name
    else MatchLocation haversine lat lon acc places

/-- The test of the loop of `MatchLocation`: the place is closer to the
coordinate than its radius plus the accuracy. -/
def Qualifies (haversine : Coord → Coord → Float64 × Float64) (lat lon acc : Float64)
    (place : Place) : Bool :=
  Float64.lt (Distance haversine place.Center ⟨lat, lon⟩) (Float64.add place.Radius acc)

/-! ## The `POST /log` handler -/

/-- The query parameters of a request, as `c.Query` returns them. -/
structure Request where
  lat : String
  lon : String
  acc : String
  time : String

/-- The status and body of the HTTP response. -/
structure Response where
  status : Nat
  body : String
  deriving DecidableEq, Repr

/-- The database `v1`: the `location` collection and the field
`collections.location.lastFetched` of the `config` document. -/
structure Database where
  location : List Document
  lastFetched : Option Int
  deriving DecidableEq, Repr

/-- Outcome of one request: the response, the database after it, and whether
`RecordNewPosition` was called. -/
structure Handled where
  response : Response
  db : Database
  recorded : Bool
  deriving DecidableEq, Repr

/-- The handler of `POST /log`.  `ParseFloat` stands for
`strconv.ParseFloat(·, 64)` and `Parse` for `time.Parse(time.RFC3339, ·)`,
`none` being an error.  A handler that returns without writing a response
answers 200 with an empty body; a panic is recovered by the middleware of
`gin.Default()`, which answers 500. -/
def logHandler (ParseFloat : String → Option Float64) (Parse : String → Option Int)
    (haversine : Coord → Coord → Float64 × Float64)
    (findOne : List Document → Option Document) (places : List Place)
    (now fetched : Int) (newId : Nat) (db : Database) (c : Request) : Handled :=
  match ParseFloat c.lat with
  | none => ⟨⟨400, "Badly formatted lat"⟩, db, false⟩
  | some lat =>
    match ParseFloat c.lon with
    | none => ⟨⟨400, "Badly formatted lon"⟩, db, false⟩
    | some lon =>
      match ParseFloat c.acc with
      | none => ⟨⟨400, "Badly formatted lon"⟩, db, false⟩
      | some acc =>
        if Float64.lt (Float64.fin 70) acc then ⟨⟨200, ""⟩, db, false⟩
        else
          match RecordNewPosition findOne db.location
              (MatchLocation haversine lat lon acc places) (Parse c.time) now newId with
          | none => ⟨⟨500, ""⟩, db, true⟩
          | some docs => ⟨⟨200, ""⟩, ⟨docs, some (NewDateTimeFromTime fetched)⟩, true⟩

/-- A distance function for the examples: 0 km from a centre of latitude 10,
5 km from any other centre. -/
def exampleHaversine (a _b : Coord) : Float64 × Float64 :=
  if a.Lat = Float64.fin 10 then (Float64.fin 0, Float64.fin 0)
  else (Float64.fin 3, Float64.fin 5)

/-- A catalog for the examples: three places of radius 50, 50 and 100. -/
def exampleCatalog : List Place :=
  [⟨⟨Float64.fin 20, Float64.fin 10⟩, Float64.fin 50, "Far"⟩,
   ⟨⟨Float64.fin 10, Float64.fin 10⟩, Float64.fin 50, "Home"⟩,
   ⟨⟨Float64.fin 10, Float64.fin 10⟩, Float64.fin 100, "Big"⟩]

/-! ## Auxiliary facts -/

theorem maxDuration_eq : maxDuration = 9223372036854775807 := by
  norm_num [maxDuration]

theorem minDuration_eq : minDuration = -9223372036854775808 := by
  norm_num [minDuration]

theorem NewDateTimeFromTime_Time (dt : Int) : NewDateTimeFromTime (DateTime.Time dt) = dt := by
  unfold NewDateTimeFromTime DateTime.Time
  omega

theorem Time_NewDateTimeFromTime (t : Int) :
    DateTime.Time (NewDateTimeFromTime t) ≤ t ∧
      t < DateTime.Time (NewDateTimeFromTime t) + 1000000 := by
  unfold NewDateTimeFromTime DateTime.Time
  omega

theorem findOneFirst_sorts : SortsByStartDateDesc findOneFirst := by
  intro docs
  induction docs with
  | nil => simp [findOneFirst]
  | cons d ds ih =>
    simp only [findOneFirst]
    cases h : findOneFirst ds with
    | none =>
      rw [h] at ih
      simp only at ih
      subst ih
      simp
    | some e =>
      rw [h] at ih
      simp only at ih
      obtain ⟨hmem, hmax⟩ := ih
      by_cases hlt : d.startDate < e.startDate
      · simp only [hlt, if_true]
        refine ⟨List.mem_cons_of_mem _ hmem, ?_⟩
        intro x hx
        rcases List.mem_cons.mp hx with rfl | hx
        · exact le_of_lt hlt
        · exact hmax x hx
      · simp only [hlt, if_false]
        refine ⟨List.mem_cons_self _ _, ?_⟩
        intro x hx
        rcases List.mem_cons.mp hx with rfl | hx
        · exact le_refl _
        · exact le_trans (hmax x hx) (not_lt.mp hlt)

theorem findOneLast_sorts : SortsByStartDateDesc findOneLast := by
  intro docs
  induction docs with
  | nil => simp [findOneLast]
  | cons d ds ih =>
    simp only [findOneLast]
    cases h : findOneLast ds with
    | none =>
      rw [h] at ih
      simp only at ih
      subst ih
      simp
    | some e =>
      rw [h] at ih
      simp only at ih
      obtain ⟨hmem, hmax⟩ := ih
      by_cases hlt : e.startDate < d.startDate
      · simp only [hlt, if_true]
        refine ⟨List.mem_cons_self _ _, ?_⟩
        intro x hx
        rcases List.mem_cons.mp hx with rfl | hx
        · exact le_refl _
        · exact le_trans (hmax x hx) (le_of_lt hlt)
      · simp only [hlt, if_false]
        refine ⟨List.mem_cons_of_mem _ hmem, ?_⟩
        intro x hx
        rcases List.mem_cons.mp hx with rfl | hx
        · exact not_lt.mp hlt
        · exact hmax x hx

theorem findOne_mem {findOne : List Document → Option Document}
    (hfind : SortsByStartDateDesc findOne) {docs : List Document} {I : Document}
    (hI : findOne docs = some I) : I ∈ docs := by
  have h := hfind docs
  rw [hI] at h
  exact h.1

theorem findOne_max {findOne : List Document → Option Document}
    (hfind : SortsByStartDateDesc findOne) {docs : List Document} {I : Document}
    (hI : findOne docs = some I) : ∀ e ∈ docs, e.startDate ≤ I.startDate := by
  have h := hfind docs
  rw [hI] at h
  exact h.2

theorem findOne_nil {findOne : List Document → Option Document}
    (hfind : SortsByStartDateDesc findOne) : findOne [] = none := by
  have h := hfind []
  cases hf : findOne [] with
  | none => rfl
  | some d =>
    rw [hf] at h
    exact absurd h.1 (List.not_mem_nil d)

theorem UpdateOne_split (pre post : List Document) (I : Document)
    (hpre : ∀ d ∈ pre, d.id ≠ I.id) (endDate : Int) (duration : Int) :
    UpdateOne (pre ++ I :: post) I.id endDate duration =
      pre ++ ⟨I.id, I.location, I.startDate, NewDateTimeFromTime endDate, duration,
        I.fetchDate⟩ :: post := by
  induction pre with
  | nil => simp [UpdateOne]
  | cons d ds ih =>
    have hd : d.id ≠ I.id := hpre d (List.mem_cons_self _ _)
    have hds : ∀ x ∈ ds, x.id ≠ I.id := fun x hx => hpre x (List.mem_cons_of_mem _ hx)
    simp [UpdateOne, hd, ih hds]

theorem split_of_mem_nodup {docs : List Document} {I : Document} (hmem : I ∈ docs)
    (hids : (docs.map Document.id).Nodup) :
    ∃ pre post, docs = pre ++ I :: post ∧ (∀ d ∈ pre, d.id ≠ I.id) ∧
      (∀ d ∈ post, d.id ≠ I.id) := by
  obtain ⟨pre, post, rfl⟩ := List.append_of_mem hmem
  refine ⟨pre, post, rfl, ?_, ?_⟩
  · intro d hd heq
    rw [List.map_append, List.map_cons, List.nodup_append] at hids
    exact hids.2.2 (List.mem_map_of_mem _ hd) (by rw [heq]; exact List.mem_cons_self _ _)
  · intro d hd heq
    rw [List.map_append, List.map_cons, List.nodup_append] at hids
    have h2 := hids.2.1
    rw [List.nodup_cons] at h2
    exact h2.1 (by rw [← heq]; exact List.mem_map_of_mem _ hd)


/-! ## The three branches of `RecordNewPosition` -/

theorem GetLastPosition_of_findOne {findOne : List Document → Option Document}
    {docs : List Document} {I : Document} (hI : findOne docs = some I) :
    GetLastPosition findOne docs = some I.Decode := by
  simp [GetLastPosition, hI]

theorem chooseWrite_of_after (last : PositionRecord) (location : String) (T now : Int)
    (hstale : T < last.EndDate) : chooseWrite (some last) location T now = Write.skip := by
  have hafter : Time.After last.EndDate T = true := by
    simp [Time.After]; exact hstale
  simp [chooseWrite, hafter]

/-- C3: when the latest interval `I` ends strictly after the record date `T`,
whatever the location, `RecordNewPosition` issues no write and the collection
after the call is the collection before it. -/
theorem RecordNewPosition_discards_stale (findOne : List Document → Option Document)
    (docs : List Document) (I : Document) (location : String) (T now : Int) (newId : Nat)
    (hI : findOne docs = some I) (hstale : DateTime.Time I.endDate > T) :
    chooseWrite (GetLastPosition findOne docs) location T now = Write.skip ∧
      RecordNewPosition findOne docs location (some T) now newId = some docs := by
  have hw : chooseWrite (GetLastPosition findOne docs) location T now = Write.skip := by
    rw [GetLastPosition_of_findOne hI]
    exact chooseWrite_of_after I.Decode location T now hstale
  refine ⟨hw, ?_⟩
  simp only [RecordNewPosition, hw, Write.run]

theorem RecordNewPosition_discards_stale_witness :
    chooseWrite (GetLastPosition findOneFirst
        [⟨1, "Home", 0, 3600000, 3600000, 0⟩, ⟨2, "Office", 7200000, 9000000, 1800000, 0⟩])
        "Home" 8000000000000 5 = Write.skip ∧
      RecordNewPosition findOneFirst
        [⟨1, "Home", 0, 3600000, 3600000, 0⟩, ⟨2, "Office", 7200000, 9000000, 1800000, 0⟩]
        "Home" (some 8000000000000) 5 3 =
        some [⟨1, "Home", 0, 3600000, 3600000, 0⟩, ⟨2, "Office", 7200000, 9000000, 1800000, 0⟩] :=
  RecordNewPosition_discards_stale findOneFirst _ ⟨2, "Office", 7200000, 9000000, 1800000, 0⟩
    "Home" 8000000000000 5 3 (by decide) (by decide)

theorem Sub_gt_three_hours (t u : Int) :
    Time.Sub t u > 3 * Hour ↔ t - u > 3 * Hour := by
  unfold Time.Sub
  rw [maxDuration_eq, minDuration_eq]
  simp only [Hour]
  split_ifs <;> constructor <;> intro h <;> omega

theorem not_After_iff (t u : Int) : Time.After t u = false ↔ t ≤ u := by
  simp [Time.After]

/-- C2: when the collection is empty, and when the latest interval `I` ends
before the record date `t2` and either the location differs from that of `I`
or `t2` is more than three hours after the end of `I`, the collection after
`RecordNewPosition` is the old one followed by exactly one new document
`location, startDate = t2, endDate = t2, duration = 0` (the dates at the
millisecond resolution of the collection); no earlier document is touched. -/
theorem RecordNewPosition_inserts (findOne : List Document → Option Document)
    (hfind : SortsByStartDateDesc findOne) (docs : List Document) (location : String)
    (t2 now : Int) (newId : Nat) :
    (docs = [] →
      RecordNewPosition findOne docs location (some t2) now newId =
        some [⟨newId, location, NewDateTimeFromTime t2, NewDateTimeFromTime t2, 0,
          NewDateTimeFromTime now⟩]) ∧
    (∀ I : Document, findOne docs = some I → DateTime.Time I.endDate < t2 →
      (location ≠ I.location ∨ t2 - DateTime.Time I.endDate > 3 * Hour) →
      RecordNewPosition findOne docs location (some t2) now newId =
        some (docs ++ [⟨newId, location, NewDateTimeFromTime t2, NewDateTimeFromTime t2, 0,
          NewDateTimeFromTime now⟩])) := by
  constructor
  · intro hnil
    subst hnil
    simp [RecordNewPosition, GetLastPosition, findOne_nil hfind, chooseWrite, Write.run,
      InsertOne]
  · intro I hI hlater hcond
    have hafter : Time.After (DateTime.Time I.endDate) t2 = false :=
      (not_After_iff _ _).mpr (le_of_lt hlater)
    have hc : I.location ≠ location ∨ Time.Sub t2 (DateTime.Time I.endDate) > 3 * Hour := by
      rcases hcond with h | h
      · exact Or.inl (fun e => h e.symm)
      · exact Or.inr ((Sub_gt_three_hours _ _).mpr h)
    simp only [RecordNewPosition, GetLastPosition_of_findOne hI, chooseWrite, Document.Decode,
      hafter, Bool.false_eq_true, if_false, hc, if_true, Write.run, InsertOne]

theorem RecordNewPosition_inserts_witness :
    RecordNewPosition findOneFirst [] "Home" (some 1700000000123456789) 42 1 =
        some [⟨1, "Home", 1700000000123, 1700000000123, 0, 0⟩] ∧
    RecordNewPosition findOneFirst [⟨1, "Home", 0, 3600000, 3600000, 0⟩] "Office"
        (some 3600001000000) 42 2 =
      some [⟨1, "Home", 0, 3600000, 3600000, 0⟩, ⟨2, "Office", 3600001, 3600001, 0, 0⟩] ∧
    RecordNewPosition findOneFirst [⟨1, "Home", 0, 3600000, 3600000, 0⟩] "Home"
        (some 14400000000001) 42 2 =
      some [⟨1, "Home", 0, 3600000, 3600000, 0⟩, ⟨2, "Home", 14400000, 14400000, 0, 0⟩] :=
  ⟨(RecordNewPosition_inserts findOneFirst findOneFirst_sorts [] "Home" 1700000000123456789
      42 1).1 rfl,
   (RecordNewPosition_inserts findOneFirst findOneFirst_sorts
      [⟨1, "Home", 0, 3600000, 3600000, 0⟩] "Office" 3600001000000 42 2).2
      ⟨1, "Home", 0, 3600000, 3600000, 0⟩ (by decide) (by decide) (Or.inl (by decide)),
   (RecordNewPosition_inserts findOneFirst findOneFirst_sorts
      [⟨1, "Home", 0, 3600000, 3600000, 0⟩] "Home" 14400000000001 42 2).2
      ⟨1, "Home", 0, 3600000, 3600000, 0⟩ (by decide) (by decide) (Or.inr (by decide))⟩

theorem Sub_of_fits (t u : Int) (hlo : minDuration ≤ t - u) (hhi : t - u ≤ maxDuration) :
    Time.Sub t u = t - u := by
  unfold Time.Sub
  rw [if_neg (not_lt.mpr hhi), if_neg (not_lt.mpr hlo)]

/-- C1 (counterexample): the latest interval is `Home` from 1653-02-10 to
1970-01-01T00:00:00Z and `Home` is observed one hour after its end.  The
interval is extended, no document is added, but the duration written is
9223372036854 ms, the largest `time.Duration`, and not the 10000003600000 ms
between the start of the interval and the observation. -/
theorem RecordNewPosition_extend_duration_saturates :
    findOneFirst [⟨1, "Home", -10000000000000, 0, 9223372036854, 0⟩] =
        some ⟨1, "Home", -10000000000000, 0, 9223372036854, 0⟩ ∧
      DateTime.Time 0 < 3600000000000 ∧ (3600000000000 : Int) ≤ DateTime.Time 0 + 3 * Hour ∧
      RecordNewPosition findOneFirst [⟨1, "Home", -10000000000000, 0, 9223372036854, 0⟩]
          "Home" (some 3600000000000) 0 2 =
        some [⟨1, "Home", -10000000000000, 3600000, 9223372036854, 0⟩] ∧
      (9223372036854 : Int) ≠ Int.tdiv (3600000000000 - DateTime.Time (-10000000000000)) 1000000 ∧
      (9223372036854 : Int) ≠ NewDateTimeFromTime 3600000000000 - (-10000000000000) := by
  refine ⟨by decide, by decide, by decide, by decide, by decide, by decide⟩

/-- C1 (amended): in a collection whose identifiers are distinct (as MongoDB
keeps them), when the latest interval `I` has the observed location, the
record date `t2` is after the end of `I` and at most three hours after it, and
the difference between `t2` and the start of `I` fits a `time.Duration`
(at most `2^63 - 1` ns, about 292 years), the collection after
`RecordNewPosition` is the collection before it with `I` replaced, in place,
by the same document with `endDate = t2` (at millisecond resolution) and
`duration` the whole milliseconds from the start of `I` to `t2`.  No document
is added; identifier, location, start date and fetch date of `I` and all
other documents are unchanged. -/
theorem RecordNewPosition_extends (findOne : List Document → Option Document)
    (hfind : SortsByStartDateDesc findOne) (docs : List Document)
    (hids : (docs.map Document.id).Nodup) (I : Document) (hI : findOne docs = some I)
    (t2 now : Int) (newId : Nat)
    (hafter : DateTime.Time I.endDate < t2) (hgap : t2 ≤ DateTime.Time I.endDate + 3 * Hour)
    (hlo : minDuration ≤ t2 - DateTime.Time I.startDate)
    (hhi : t2 - DateTime.Time I.startDate ≤ maxDuration) :
    ∃ pre post : List Document, docs = pre ++ I :: post ∧
      RecordNewPosition findOne docs I.location (some t2) now newId =
        some (pre ++ ⟨I.id, I.location, I.startDate, NewDateTimeFromTime t2,
          Int.tdiv (t2 - DateTime.Time I.startDate) 1000000, I.fetchDate⟩ :: post) := by
  obtain ⟨pre, post, hdocs, hpre, _⟩ := split_of_mem_nodup (findOne_mem hfind hI) hids
  refine ⟨pre, post, hdocs, ?_⟩
  have hnotafter : Time.After (DateTime.Time I.endDate) t2 = false :=
    (not_After_iff _ _).mpr (le_of_lt hafter)
  have hc : ¬ (I.location ≠ I.location ∨ Time.Sub t2 (DateTime.Time I.endDate) > 3 * Hour) := by
    rw [Sub_gt_three_hours]
    intro h
    rcases h with h | h
    · exact h rfl
    · omega
  simp only [RecordNewPosition, GetLastPosition_of_findOne hI, chooseWrite, Document.Decode,
    hnotafter, Bool.false_eq_true, if_false, hc, Write.run, Sub_of_fits _ _ hlo hhi,
    Duration.Milliseconds]
  rw [hdocs, UpdateOne_split pre post I hpre]

theorem RecordNewPosition_extends_witness :
    ∃ pre post : List Document,
      [⟨1, "Office", 0, 0, 0, 0⟩, ⟨2, "Home", 3600000, 7200000, 3600000, 0⟩] =
        pre ++ ⟨2, "Home", 3600000, 7200000, 3600000, 0⟩ :: post ∧
      RecordNewPosition findOneFirst
          [⟨1, "Office", 0, 0, 0, 0⟩, ⟨2, "Home", 3600000, 7200000, 3600000, 0⟩]
          "Home" (some 9000000500000) 0 3 =
        some (pre ++ ⟨2, "Home", 3600000, NewDateTimeFromTime 9000000500000,
          Int.tdiv (9000000500000 - DateTime.Time 3600000) 1000000, 0⟩ :: post) :=
  RecordNewPosition_extends findOneFirst findOneFirst_sorts
    [⟨1, "Office", 0, 0, 0, 0⟩, ⟨2, "Home", 3600000, 7200000, 3600000, 0⟩] (by decide)
    ⟨2, "Home", 3600000, 7200000, 3600000, 0⟩ (by decide) 9000000500000 0 3
    (by decide) (by decide) (by decide) (by decide)

/-- C7 (counterexample): the latest interval is `Home`, ending at
1970-01-01T01:00:00Z, and `Office` is observed at exactly that instant.  The
record date is not strictly after the end of the interval, yet the observation
is not discarded: an insert is issued and the collection gets a second
document. -/
theorem RecordNewPosition_keeps_observation_at_endDate :
    findOneFirst [⟨1, "Home", 0, 3600000, 3600000, 0⟩] =
        some ⟨1, "Home", 0, 3600000, 3600000, 0⟩ ∧
      (3600000000000 : Int) ≤ DateTime.Time 3600000 ∧
      chooseWrite (GetLastPosition findOneFirst [⟨1, "Home", 0, 3600000, 3600000, 0⟩])
          "Office" 3600000000000 5000000 =
        Write.insertOne "Office" 3600000000000 3600000000000 0 5000000 ∧
      RecordNewPosition findOneFirst [⟨1, "Home", 0, 3600000, 3600000, 0⟩] "Office"
          (some 3600000000000) 5000000 2 =
        some [⟨1, "Home", 0, 3600000, 3600000, 0⟩, ⟨2, "Office", 3600000, 3600000, 0, 5⟩] := by
  refine ⟨by decide, by decide, by decide, by decide⟩

/-- C7 (amended): with a latest interval `I`, `RecordNewPosition` discards an
observation (issues no write, leaves the collection as it is) exactly when its
record date `T` is strictly before the end of `I`.  An observation at exactly
the end of `I` is not discarded: it issues an extend of `I` when its location
is that of `I`, and an insert otherwise. -/
theorem RecordNewPosition_discards_iff_before (findOne : List Document → Option Document)
    (docs : List Document) (I : Document) (hI : findOne docs = some I) (location : String)
    (T now : Int) (newId : Nat) :
    (chooseWrite (GetLastPosition findOne docs) location T now = Write.skip ↔
        T < DateTime.Time I.endDate) ∧
      (T < DateTime.Time I.endDate →
        RecordNewPosition findOne docs location (some T) now newId = some docs) ∧
      (T = DateTime.Time I.endDate → location = I.location →
        chooseWrite (GetLastPosition findOne docs) location T now =
          Write.updateOne I.id T
            (Duration.Milliseconds (Time.Sub T (DateTime.Time I.startDate)))) ∧
      (T = DateTime.Time I.endDate → location ≠ I.location →
        chooseWrite (GetLastPosition findOne docs) location T now =
          Write.insertOne location T T 0 now) := by
  rw [GetLastPosition_of_findOne hI]
  refine ⟨?_, ?_, ?_, ?_⟩
  · constructor
    · intro h
      by_contra hnot
      have hna : Time.After (DateTime.Time I.endDate) T = false :=
        (not_After_iff _ _).mpr (not_lt.mp hnot)
      simp only [chooseWrite, Document.Decode, hna, Bool.false_eq_true, if_false] at h
      split_ifs at h
    · intro h
      exact chooseWrite_of_after I.Decode location T now h
  · intro h
    simp only [RecordNewPosition, GetLastPosition_of_findOne hI,
      chooseWrite_of_after I.Decode location T now h, Write.run]
  · intro hT hloc
    have hna : Time.After (DateTime.Time I.endDate) T = false :=
      (not_After_iff _ _).mpr (le_of_eq hT.symm)
    have hc : ¬ (I.location ≠ location ∨ Time.Sub T (DateTime.Time I.endDate) > 3 * Hour) := by
      rw [Sub_gt_three_hours]
      intro h
      rcases h with h | h
      · exact h hloc.symm
      · simp only [Hour] at h
        omega
    simp only [chooseWrite, Document.Decode, hna, Bool.false_eq_true, if_false, hc]
  · intro hT hloc
    have hna : Time.After (DateTime.Time I.endDate) T = false :=
      (not_After_iff _ _).mpr (le_of_eq hT.symm)
    have hc : I.location ≠ location ∨ Time.Sub T (DateTime.Time I.endDate) > 3 * Hour :=
      Or.inl (fun e => hloc e.symm)
    simp only [chooseWrite, Document.Decode, hna, Bool.false_eq_true, if_false, hc, if_true]

theorem RecordNewPosition_discards_iff_before_witness :
    chooseWrite (GetLastPosition findOneFirst [⟨1, "Home", 0, 3600000, 3600000, 0⟩])
        "Home" 3599999999999 5 = Write.skip ∧
      RecordNewPosition findOneFirst [⟨1, "Home", 0, 3600000, 3600000, 0⟩] "Home"
        (some 3599999999999) 5 2 = some [⟨1, "Home", 0, 3600000, 3600000, 0⟩] ∧
      chooseWrite (GetLastPosition findOneFirst [⟨1, "Home", 0, 3600000, 3600000, 0⟩])
        "Home" 3600000000000 5 =
        Write.updateOne 1 3600000000000
          (Duration.Milliseconds (Time.Sub 3600000000000 (DateTime.Time 0))) ∧
      chooseWrite (GetLastPosition findOneFirst [⟨1, "Home", 0, 3600000, 3600000, 0⟩])
        "Office" 3600000000000 5 = Write.insertOne "Office" 3600000000000 3600000000000 0 5 :=
  ⟨(RecordNewPosition_discards_iff_before findOneFirst [⟨1, "Home", 0, 3600000, 3600000, 0⟩]
      ⟨1, "Home", 0, 3600000, 3600000, 0⟩ (by decide) "Home" 3599999999999 5 2).1.mpr
      (by decide),
   (RecordNewPosition_discards_iff_before findOneFirst [⟨1, "Home", 0, 3600000, 3600000, 0⟩]
      ⟨1, "Home", 0, 3600000, 3600000, 0⟩ (by decide) "Home" 3599999999999 5 2).2.1
      (by decide),
   (RecordNewPosition_discards_iff_before findOneFirst [⟨1, "Home", 0, 3600000, 3600000, 0⟩]
      ⟨1, "Home", 0, 3600000, 3600000, 0⟩ (by decide) "Home" 3600000000000 5 2).2.2.1
      (by decide) rfl,
   (RecordNewPosition_discards_iff_before findOneFirst [⟨1, "Home", 0, 3600000, 3600000, 0⟩]
      ⟨1, "Home", 0, 3600000, 3600000, 0⟩ (by decide) "Office" 3600000000000 5 2).2.2.2
      (by decide) (by decide)⟩

/-! ## Re-applying an observation -/

theorem chooseWrite_insert_shape {lastPosition : Option PositionRecord}
    {location loc : String} {T now s e d f : Int}
    (h : chooseWrite lastPosition location T now = Write.insertOne loc s e d f) :
    loc = location ∧ s = T ∧ e = T ∧ d = 0 ∧ f = now := by
  unfold chooseWrite at h
  split at h
  · injection h with h1 h2 h3 h4 h5
    exact ⟨h1.symm, h2.symm, h3.symm, h4.symm, h5.symm⟩
  · split_ifs at h
    injection h with h1 h2 h3 h4 h5
    exact ⟨h1.symm, h2.symm, h3.symm, h4.symm, h5.symm⟩

theorem chooseWrite_update_shape {lastPosition : Option PositionRecord}
    {location : String} {T now e d : Int} {id : Nat}
    (h : chooseWrite lastPosition location T now = Write.updateOne id e d) :
    ∃ last, lastPosition = some last ∧ id = last.Id ∧ e = T ∧
      d = Duration.Milliseconds (Time.Sub T last.StartDate) ∧ last.Location = location ∧
      last.EndDate ≤ T ∧ T - last.EndDate ≤ 3 * Hour := by
  unfold chooseWrite at h
  split at h
  · exact Write.noConfusion h
  · rename_i last
    split_ifs at h with h1 h2
    injection h with h3 h4 h5
    have h1b : Time.After last.EndDate T = false := by simpa using h1
    rw [Sub_gt_three_hours] at h2
    refine ⟨last, rfl, h3.symm, h4.symm, h5.symm, ?_, (not_After_iff _ _).mp h1b, ?_⟩
    · by_contra hne
      exact h2 (Or.inl hne)
    · by_contra hgap
      exact h2 (Or.inr (not_le.mp hgap))

theorem Milliseconds_Sub_of_le (T s : Int) (hle : DateTime.Time s ≤ T) :
    Duration.Milliseconds (Time.Sub T (DateTime.Time s)) =
      min (NewDateTimeFromTime T - s) 9223372036854 := by
  unfold Duration.Milliseconds Time.Sub DateTime.Time NewDateTimeFromTime
  unfold DateTime.Time at hle
  rw [maxDuration_eq, minDuration_eq]
  split_ifs with h1 h2
  · rw [Int.tdiv_eq_ediv (by omega) (by omega)]
    omega
  · omega
  · rw [Int.tdiv_eq_ediv (by omega) (by omega)]
    omega

theorem written_document_fixed (findOne2 : List Document → Option Document)
    (docs1 : List Document) (hids : (docs1.map Document.id).Nodup) (J : Document)
    (hJ : findOne2 docs1 = some J) (hmem : J ∈ docs1) (location : String) (T now2 : Int)
    (newId2 : Nat) (hloc : J.location = location) (hend : J.endDate = NewDateTimeFromTime T)
    (hdur : J.duration = Duration.Milliseconds (Time.Sub T (DateTime.Time J.startDate))) :
    chooseWrite (GetLastPosition findOne2 docs1) location T now2 =
        Write.updateOne J.id T J.duration ∧
      RecordNewPosition findOne2 docs1 location (some T) now2 newId2 = some docs1 := by
  have hna : Time.After (DateTime.Time J.endDate) T = false := by
    rw [not_After_iff, hend]
    unfold DateTime.Time NewDateTimeFromTime
    omega
  have hc : ¬ (J.location ≠ location ∨ Time.Sub T (DateTime.Time J.endDate) > 3 * Hour) := by
    rw [Sub_gt_three_hours, hend]
    unfold DateTime.Time NewDateTimeFromTime
    simp only [Hour]
    intro h
    rcases h with h | h
    · exact h hloc
    · omega
  have hw : chooseWrite (GetLastPosition findOne2 docs1) location T now2 =
      Write.updateOne J.id T J.duration := by
    rw [GetLastPosition_of_findOne hJ]
    simp only [chooseWrite, Document.Decode, hna, Bool.false_eq_true, if_false, hc, hdur]
  refine ⟨hw, ?_⟩
  obtain ⟨pre, post, hdocs, hpre, _⟩ := split_of_mem_nodup hmem hids
  simp only [RecordNewPosition, hw, Write.run]
  rw [hdocs, UpdateOne_split pre post J hpre, ← hend]

theorem UpdateOne_ids (docs : List Document) (id : Nat) (e d : Int) :
    (UpdateOne docs id e d).map Document.id = docs.map Document.id := by
  induction docs with
  | nil => simp [UpdateOne]
  | cons x xs ih =>
    unfold UpdateOne
    split_ifs with h
    · simp
    · simp [ih]

theorem mem_UpdateOne {docs : List Document} {id : Nat} {e d : Int} {J : Document}
    (hids : (docs.map Document.id).Nodup) (hJ : J ∈ UpdateOne docs id e d) (hid : J.id = id) :
    ∃ I ∈ docs, I.id = id ∧
      J = ⟨I.id, I.location, I.startDate, NewDateTimeFromTime e, d, I.fetchDate⟩ := by
  induction docs with
  | nil => simp [UpdateOne] at hJ
  | cons x xs ih =>
    rw [List.map_cons, List.nodup_cons] at hids
    unfold UpdateOne at hJ
    split_ifs at hJ with h
    · rcases List.mem_cons.mp hJ with rfl | hJ
      · exact ⟨x, List.mem_cons_self _ _, h, rfl⟩
      · exfalso
        apply hids.1
        rw [h, ← hid]
        exact List.mem_map_of_mem _ hJ
    · rcases List.mem_cons.mp hJ with rfl | hJ
      · exact absurd hid h
      · obtain ⟨I, hI, hI2, hI3⟩ := ih hids.2 hJ
        exact ⟨I, List.mem_cons_of_mem _ hI, hI2, hI3⟩

theorem eq_of_id_eq {docs : List Document} (hids : (docs.map Document.id).Nodup)
    {a b : Document} (ha : a ∈ docs) (hb : b ∈ docs) (h : a.id = b.id) : a = b :=
  List.inj_on_of_nodup_map hids ha hb h

theorem GetLastPosition_eq_some {findOne : List Document → Option Document}
    {docs : List Document} {last : PositionRecord}
    (h : GetLastPosition findOne docs = some last) :
    ∃ I, findOne docs = some I ∧ last = I.Decode := by
  unfold GetLastPosition at h
  split at h
  · exact Option.noConfusion h
  · rename_i d hd
    exact ⟨d, hd, (Option.some.inj h).symm⟩

/-- C10: let `RecordNewPosition` run for an observation `(location, T)` on a
collection whose identifiers are distinct (as MongoDB keeps them), and run it
again for the same observation on the collection it left.  If the first
run discarded the observation, the second (seeing the same latest interval)
discards it too.  If the first run inserted or extended a document `J` and `J`
is the latest interval of the second run, the second run takes the extend
branch on `J` and writes `endDate = J.endDate` and `duration = J.duration`: the
collection is left exactly as it was, no document added. -/
theorem RecordNewPosition_reapplied (findOne findOne2 : List Document → Option Document)
    (hfind : SortsByStartDateDesc findOne) (hfind2 : SortsByStartDateDesc findOne2)
    (docs : List Document) (hids : (docs.map Document.id).Nodup)
    (location : String) (T now now2 : Int) (newId newId2 : Nat)
    (hfresh : newId ∉ docs.map Document.id) :
    (chooseWrite (GetLastPosition findOne docs) location T now = Write.skip →
      findOne2 docs = findOne docs →
      chooseWrite (GetLastPosition findOne2 docs) location T now2 = Write.skip ∧
        RecordNewPosition findOne2 docs location (some T) now2 newId2 = some docs) ∧
    (∀ (w : Write) (docs1 : List Document) (J : Document),
      chooseWrite (GetLastPosition findOne docs) location T now = w →
      RecordNewPosition findOne docs location (some T) now newId = some docs1 →
      findOne2 docs1 = some J →
      ((∃ loc s e d f, w = Write.insertOne loc s e d f ∧ J.id = newId) ∨
        (∃ e d, w = Write.updateOne J.id e d)) →
      chooseWrite (GetLastPosition findOne2 docs1) location T now2 =
          Write.updateOne J.id T J.duration ∧
        NewDateTimeFromTime T = J.endDate ∧
        RecordNewPosition findOne2 docs1 location (some T) now2 newId2 = some docs1) := by
  constructor
  · intro hskip hsame
    have hg : GetLastPosition findOne2 docs = GetLastPosition findOne docs := by
      simp [GetLastPosition, hsame]
    have hw : chooseWrite (GetLastPosition findOne2 docs) location T now2 = Write.skip := by
      rw [hg]
      unfold chooseWrite at hskip ⊢
      split at hskip
      · exact Write.noConfusion hskip
      · split_ifs at hskip with h1
        simp [h1]
    refine ⟨hw, ?_⟩
    simp only [RecordNewPosition, hw, Write.run]
  · intro w docs1 J hw hrun hJ hcase
    have hJmem : J ∈ docs1 := findOne_mem hfind2 hJ
    simp only [RecordNewPosition, hw, Option.some.injEq] at hrun
    rcases hcase with ⟨loc, s, e, d, f, hins, hJid⟩ | ⟨e, d, hupd⟩
    · rw [hins] at hw
      obtain ⟨h1, h2, h3, h4, h5⟩ := chooseWrite_insert_shape hw
      rw [hins] at hrun
      simp only [Write.run, InsertOne, h1, h2, h3, h4, h5] at hrun
      subst hrun
      have hJeq : J = ⟨newId, location, NewDateTimeFromTime T, NewDateTimeFromTime T, 0,
          NewDateTimeFromTime now⟩ := by
        rcases List.mem_append.mp hJmem with h | h
        · exact absurd (hJid ▸ List.mem_map_of_mem Document.id h) hfresh
        · simpa using h
      have hids1 : ((docs ++ [(⟨newId, location, NewDateTimeFromTime T, NewDateTimeFromTime T, 0,
          NewDateTimeFromTime now⟩ : Document)]).map Document.id).Nodup := by
        rw [List.map_append, List.nodup_append]
        refine ⟨hids, by simp, ?_⟩
        intro a ha hb
        simp only [List.map_cons, List.map_nil, List.mem_singleton] at hb
        exact hfresh (hb ▸ ha)
      have hle : DateTime.Time (NewDateTimeFromTime T) ≤ T := by
        unfold DateTime.Time NewDateTimeFromTime
        omega
      have hdur : J.duration =
          Duration.Milliseconds (Time.Sub T (DateTime.Time J.startDate)) := by
        rw [hJeq, Milliseconds_Sub_of_le T _ hle]
        simp
      have hend : J.endDate = NewDateTimeFromTime T := by rw [hJeq]
      have hloc : J.location = location := by rw [hJeq]
      obtain ⟨h1, h2⟩ := written_document_fixed findOne2 _ hids1 J hJ hJmem location T now2 newId2
        hloc hend hdur
      exact ⟨h1, hend.symm, h2⟩
    · rw [hupd] at hw
      obtain ⟨last, hlast, hid, rfl, hd, hloc, _, _⟩ := chooseWrite_update_shape hw
      obtain ⟨I, hI, rfl⟩ := GetLastPosition_eq_some hlast
      rw [hupd] at hrun
      simp only [Write.run] at hrun
      subst hrun
      have hids1 : ((UpdateOne docs J.id e d).map Document.id).Nodup := by
        rw [UpdateOne_ids]
        exact hids
      obtain ⟨I2, hI2mem, hI2id, hJeq⟩ := mem_UpdateOne hids hJmem rfl
      have hII : I2 = I := eq_of_id_eq hids hI2mem (findOne_mem hfind hI) (by
        rw [hI2id, hid]
        rfl)
      subst hII
      have hend : J.endDate = NewDateTimeFromTime e := by rw [hJeq]
      have hloc2 : J.location = location := by
        rw [hJeq]
        exact hloc
      have hdur : J.duration =
          Duration.Milliseconds (Time.Sub e (DateTime.Time J.startDate)) := by
        rw [hJeq]
        exact hd
      obtain ⟨h1, h2⟩ := written_document_fixed findOne2 _ hids1 J hJ hJmem location e now2
        newId2 hloc2 hend hdur
      exact ⟨h1, hend.symm, h2⟩

theorem RecordNewPosition_reapplied_witness :
    (chooseWrite (GetLastPosition findOneLast [⟨1, "Home", 0, 3600000, 3600000, 0⟩])
          "Home" 1000 9 = Write.skip ∧
        RecordNewPosition findOneLast [⟨1, "Home", 0, 3600000, 3600000, 0⟩] "Home"
          (some 1000) 9 3 = some [⟨1, "Home", 0, 3600000, 3600000, 0⟩]) ∧
      (chooseWrite (GetLastPosition findOneLast [⟨1, "Home", 0, 7200000, 7200000, 0⟩])
          "Home" 7200000000999 9 = Write.updateOne 1 7200000000999 7200000 ∧
        NewDateTimeFromTime 7200000000999 = 7200000 ∧
        RecordNewPosition findOneLast [⟨1, "Home", 0, 7200000, 7200000, 0⟩] "Home"
          (some 7200000000999) 9 3 = some [⟨1, "Home", 0, 7200000, 7200000, 0⟩]) ∧
      (chooseWrite (GetLastPosition findOneLast
            [⟨1, "Home", 0, 3600000, 3600000, 0⟩, ⟨2, "Office", 7200000, 7200000, 0, 0⟩])
          "Office" 7200000000999 9 = Write.updateOne 2 7200000000999 0 ∧
        NewDateTimeFromTime 7200000000999 = 7200000 ∧
        RecordNewPosition findOneLast
            [⟨1, "Home", 0, 3600000, 3600000, 0⟩, ⟨2, "Office", 7200000, 7200000, 0, 0⟩]
            "Office" (some 7200000000999) 9 3 =
          some [⟨1, "Home", 0, 3600000, 3600000, 0⟩, ⟨2, "Office", 7200000, 7200000, 0, 0⟩]) :=
  ⟨(RecordNewPosition_reapplied findOneFirst findOneLast findOneFirst_sorts findOneLast_sorts
      [⟨1, "Home", 0, 3600000, 3600000, 0⟩] (by decide) "Home" 1000 0 9 2 3 (by decide)).1
      (by decide) (by decide),
   (RecordNewPosition_reapplied findOneFirst findOneLast findOneFirst_sorts findOneLast_sorts
      [⟨1, "Home", 0, 3600000, 3600000, 0⟩] (by decide) "Home" 7200000000999 0 9 2 3
      (by decide)).2 (Write.updateOne 1 7200000000999 7200000)
      [⟨1, "Home", 0, 7200000, 7200000, 0⟩] ⟨1, "Home", 0, 7200000, 7200000, 0⟩
      (by decide) (by decide) (by decide) (Or.inr ⟨7200000000999, 7200000, rfl⟩),
   (RecordNewPosition_reapplied findOneFirst findOneLast findOneFirst_sorts findOneLast_sorts
      [⟨1, "Home", 0, 3600000, 3600000, 0⟩] (by decide) "Office" 7200000000999 0 9 2 3
      (by decide)).2 (Write.insertOne "Office" 7200000000999 7200000000999 0 0)
      [⟨1, "Home", 0, 3600000, 3600000, 0⟩, ⟨2, "Office", 7200000, 7200000, 0, 0⟩]
      ⟨2, "Office", 7200000, 7200000, 0, 0⟩
      (by decide) (by decide) (by decide)
      (Or.inl ⟨"Office", 7200000000999, 7200000000999, 0, 0, rfl, rfl⟩)⟩

/-! ## Invariants of the reachable collections -/

theorem mem_UpdateOne_cases {docs : List Document} {id : Nat} {e d : Int} {J : Document}
    (hJ : J ∈ UpdateOne docs id e d) :
    J ∈ docs ∨ ∃ I ∈ docs, I.id = id ∧
      J = ⟨I.id, I.location, I.startDate, NewDateTimeFromTime e, d, I.fetchDate⟩ := by
  induction docs with
  | nil => simp [UpdateOne] at hJ
  | cons x xs ih =>
    unfold UpdateOne at hJ
    split_ifs at hJ with h
    · rcases List.mem_cons.mp hJ with rfl | hJ
      · exact Or.inr ⟨x, List.mem_cons_self _ _, h, rfl⟩
      · exact Or.inl (List.mem_cons_of_mem _ hJ)
    · rcases List.mem_cons.mp hJ with rfl | hJ
      · exact Or.inl (List.mem_cons_self _ _)
      · rcases ih hJ with h1 | ⟨I, hI, hI2, hI3⟩
        · exact Or.inl (List.mem_cons_of_mem _ h1)
        · exact Or.inr ⟨I, List.mem_cons_of_mem _ hI, hI2, hI3⟩

/-- What every document of a reachable collection satisfies. -/
theorem document_invariant_step {docs docs2 : List Document}
    (findOne : List Document → Option Document) (location : String) (timestamp : Option Int)
    (now : Int) (newId : Nat) (hfind : SortsByStartDateDesc findOne)
    (hfresh : newId ∉ docs.map Document.id)
    (hrun : RecordNewPosition findOne docs location timestamp now newId = some docs2)
    (hids : (docs.map Document.id).Nodup)
    (hinv : ∀ d ∈ docs, d.startDate ≤ d.endDate ∧
      d.duration = min (d.endDate - d.startDate) 9223372036854) :
    (docs2.map Document.id).Nodup ∧
      ∀ d ∈ docs2, d.startDate ≤ d.endDate ∧
        d.duration = min (d.endDate - d.startDate) 9223372036854 := by
  cases timestamp with
  | none => simp [RecordNewPosition] at hrun
  | some T =>
    simp only [RecordNewPosition, Option.some.injEq] at hrun
    cases hw : chooseWrite (GetLastPosition findOne docs) location T now with
    | skip =>
      rw [hw] at hrun
      simp only [Write.run] at hrun
      subst hrun
      exact ⟨hids, hinv⟩
    | insertOne loc s e d f =>
      obtain ⟨h1, h2, h3, h4, h5⟩ := chooseWrite_insert_shape hw
      rw [hw] at hrun
      simp only [Write.run, InsertOne, h1, h2, h3, h4, h5] at hrun
      subst hrun
      constructor
      · rw [List.map_append, List.nodup_append]
        refine ⟨hids, by simp, ?_⟩
        intro a ha hb
        simp only [List.map_cons, List.map_nil, List.mem_singleton] at hb
        exact hfresh (hb ▸ ha)
      · intro x hx
        rcases List.mem_append.mp hx with hx | hx
        · exact hinv x hx
        · simp only [List.mem_singleton] at hx
          subst hx
          simp
    | updateOne id e d =>
      obtain ⟨last, hlast, hid, he, hd, _, hend, _⟩ := chooseWrite_update_shape hw
      obtain ⟨I, hI, hdec⟩ := GetLastPosition_eq_some hlast
      rw [hw] at hrun
      simp only [Write.run] at hrun
      subst hrun
      have hImem : I ∈ docs := findOne_mem hfind hI
      have hIinv := hinv I hImem
      have hendI : DateTime.Time I.endDate ≤ T := by
        rw [hdec] at hend
        exact hend
      have hstartI : DateTime.Time I.startDate ≤ T := by
        have := hIinv.1
        unfold DateTime.Time at hendI ⊢
        omega
      constructor
      · rw [UpdateOne_ids]
        exact hids
      · intro x hx
        rcases mem_UpdateOne_cases hx with hx | ⟨I0, hI0, hI0id, hxeq⟩
        · exact hinv x hx
        · have hII : I0 = I := eq_of_id_eq hids hI0 hImem (by
            rw [hI0id, hid, hdec]
            rfl)
          subst hII
          rw [hxeq, hd, hdec, he]
          simp only [Document.Decode]
          rw [Milliseconds_Sub_of_le T _ hstartI]
          refine ⟨?_, rfl⟩
          have := hIinv.1
          unfold DateTime.Time at hendI
          unfold NewDateTimeFromTime
          omega

theorem reachable_invariant {ok : (List Document → Option Document) → List Document → Prop}
    {docs : List Document}
    (h : ReachableWhen ok docs) :
    (docs.map Document.id).Nodup ∧
      ∀ d ∈ docs, d.startDate ≤ d.endDate ∧
        d.duration = min (d.endDate - d.startDate) 9223372036854 := by
  induction h with
  | empty => simp
  | record findOne location timestamp now newId _ _ hfind hfresh hrun ih =>
    exact document_invariant_step findOne location timestamp now newId hfind hfresh hrun
      ih.1 ih.2

theorem long_stay_reachable (n : Nat) :
    Reachable [⟨1, "Home", 0, (n : Int) * 10800000,
      Duration.Milliseconds (Time.Sub ((n : Int) * 10800000000000) 0), 0⟩] := by
  induction n with
  | zero =>
    refine ReachableWhen.record findOneFirst "Home" (some 0) 0 1 ReachableWhen.empty trivial
      findOneFirst_sorts (by simp) ?_
    decide
  | succ n ih =>
    refine ReachableWhen.record findOneFirst "Home"
      (some (((n + 1 : Nat) : Int) * 10800000000000)) 0 2 ih trivial findOneFirst_sorts
      (by simp) ?_
    have hna : Time.After (DateTime.Time ((n : Int) * 10800000))
        (((n + 1 : Nat) : Int) * 10800000000000) = false := by
      rw [not_After_iff]
      unfold DateTime.Time
      push_cast
      omega
    have hc : ¬ ("Home" ≠ "Home" ∨
        Time.Sub (((n + 1 : Nat) : Int) * 10800000000000)
          (DateTime.Time ((n : Int) * 10800000)) > 3 * Hour) := by
      rw [Sub_gt_three_hours]
      unfold DateTime.Time
      simp only [Hour]
      push_cast
      intro h
      rcases h with h | h
      · exact h.elim
      · omega
    have hN : NewDateTimeFromTime (((n + 1 : Nat) : Int) * 10800000000000) =
        ((n + 1 : Nat) : Int) * 10800000 := by
      unfold NewDateTimeFromTime
      push_cast
      omega
    simp only [RecordNewPosition, GetLastPosition, findOneFirst, chooseWrite, Document.Decode,
      hna, Bool.false_eq_true, if_false, hc, Write.run, UpdateOne, if_true, hN]
    simp [DateTime.Time]

/-- C6 (counterexample): `Home` is observed at 1970-01-01T00:00:00Z and then
every three hours, 854016 times.  Every observation after the first extends
the one interval of the collection, which then runs from 0 ms to
9223372800000 ms while its `duration` is 9223372036854 ms: the duration is not
`endDate - startDate`. -/
theorem reachable_duration_differs :
    Reachable [⟨1, "Home", 0, 9223372800000, 9223372036854, 0⟩] ∧
      (9223372036854 : Int) ≠ 9223372800000 - 0 := by
  refine ⟨?_, by decide⟩
  have h := long_stay_reachable 854016
  have he : ([⟨1, "Home", 0, ((854016 : Nat) : Int) * 10800000,
      Duration.Milliseconds (Time.Sub (((854016 : Nat) : Int) * 10800000000000) 0), 0⟩] :
      List Document) = [⟨1, "Home", 0, 9223372800000, 9223372036854, 0⟩] := by
    decide
  rw [he] at h
  exact h

/-- C6 (amended): every document of every collection reachable from the empty
one by `RecordNewPosition` has `startDate ≤ endDate`, and its `duration` is
`endDate - startDate` in milliseconds, capped at 9223372036854 ms, the
largest `time.Duration` (about 292 years); so `duration = endDate - startDate`
for every interval no longer than that, and 0 for an interval whose start
equals its end.  When a call extends the latest interval `I`, on any
collection with distinct identifiers and whatever duration `I` has stored,
the duration it writes is the milliseconds from the start of `I` to the record
date (capped as above): the same write is chosen when the stored duration of
`I` is replaced by any other value, and the collection after the call is the
one before it with `I` carrying the new end and that duration. -/
theorem reachable_documents_wellformed :
    (∀ docs : List Document, Reachable docs →
      ∀ d ∈ docs, d.startDate ≤ d.endDate ∧
        d.duration = min (d.endDate - d.startDate) 9223372036854 ∧
        (d.endDate - d.startDate ≤ 9223372036854 → d.duration = d.endDate - d.startDate)) ∧
    (∀ (findOne : List Document → Option Document) (docs : List Document) (I : Document)
      (location : String) (T now : Int) (newId : Nat),
      SortsByStartDateDesc findOne → (docs.map Document.id).Nodup → findOne docs = some I →
      (∃ id e dur, chooseWrite (GetLastPosition findOne docs) location T now =
        Write.updateOne id e dur) →
      chooseWrite (GetLastPosition findOne docs) location T now =
          Write.updateOne I.id T
            (Duration.Milliseconds (Time.Sub T (DateTime.Time I.startDate))) ∧
        (DateTime.Time I.startDate ≤ T →
          Duration.Milliseconds (Time.Sub T (DateTime.Time I.startDate)) =
            min (NewDateTimeFromTime T - I.startDate) 9223372036854) ∧
        (∀ stored : Int,
          chooseWrite (some (Document.Decode
              ⟨I.id, I.location, I.startDate, I.endDate, stored, I.fetchDate⟩))
            location T now =
          Write.updateOne I.id T
            (Duration.Milliseconds (Time.Sub T (DateTime.Time I.startDate)))) ∧
        ∃ pre post : List Document, docs = pre ++ I :: post ∧
          RecordNewPosition findOne docs location (some T) now newId =
            some (pre ++ ⟨I.id, I.location, I.startDate, NewDateTimeFromTime T,
              Duration.Milliseconds (Time.Sub T (DateTime.Time I.startDate)),
              I.fetchDate⟩ :: post)) := by
  refine ⟨?_, ?_⟩
  · intro docs hreach d hd
    obtain ⟨hle, hdur⟩ := (reachable_invariant hreach).2 d hd
    refine ⟨hle, hdur, ?_⟩
    intro hshort
    rw [hdur]
    exact min_eq_left hshort
  · intro findOne docs I location T now newId hfind hids hI hext
    obtain ⟨id, e, dur, hw0⟩ := hext
    have hw := hw0
    rw [GetLastPosition_of_findOne hI] at hw
    obtain ⟨last, hlast, hid, he, hd, _, _, _⟩ := chooseWrite_update_shape hw
    have hlastI : last = I.Decode := (Option.some.inj hlast).symm
    have hidI : id = I.id := by
      rw [hid, hlastI]
      rfl
    have hdurI : dur = Duration.Milliseconds (Time.Sub T (DateTime.Time I.startDate)) := by
      rw [hd, hlastI]
      rfl
    rw [hidI, he, hdurI] at hw hw0
    refine ⟨hw0, ?_, ?_, ?_⟩
    · intro hle
      exact Milliseconds_Sub_of_le T I.startDate hle
    · intro stored
      exact hw
    · obtain ⟨pre, post, hdocs, hpre, _⟩ := split_of_mem_nodup (findOne_mem hfind hI) hids
      refine ⟨pre, post, hdocs, ?_⟩
      simp only [RecordNewPosition, hw0, Write.run]
      rw [hdocs, UpdateOne_split pre post I hpre]

theorem reachable_documents_wellformed_witness :
    (Reachable [⟨1, "Home", 0, 10800000, 10800000, 0⟩] ∧
      (⟨1, "Home", 0, 10800000, 10800000, 0⟩ : Document).startDate ≤
        (⟨1, "Home", 0, 10800000, 10800000, 0⟩ : Document).endDate ∧
      (⟨1, "Home", 0, 10800000, 10800000, 0⟩ : Document).duration =
        min ((⟨1, "Home", 0, 10800000, 10800000, 0⟩ : Document).endDate -
          (⟨1, "Home", 0, 10800000, 10800000, 0⟩ : Document).startDate) 9223372036854 ∧
      (⟨1, "Home", 0, 10800000, 10800000, 0⟩ : Document).duration =
        (⟨1, "Home", 0, 10800000, 10800000, 0⟩ : Document).endDate -
          (⟨1, "Home", 0, 10800000, 10800000, 0⟩ : Document).startDate) ∧
    (chooseWrite (GetLastPosition findOneFirst
          [⟨2, "Office", -5, -5, 0, 0⟩, ⟨1, "Home", 0, 3600000, 999, 0⟩])
        "Home" 7200000000999 5 = Write.updateOne 1 7200000000999 7200000 ∧
      Duration.Milliseconds (Time.Sub 7200000000999 (DateTime.Time 0)) =
        min (NewDateTimeFromTime 7200000000999 - 0) 9223372036854 ∧
      chooseWrite (some (Document.Decode ⟨1, "Home", 0, 3600000, 123456, 0⟩))
        "Home" 7200000000999 5 = Write.updateOne 1 7200000000999 7200000 ∧
      ∃ pre post : List Document,
        [⟨2, "Office", -5, -5, 0, 0⟩, ⟨1, "Home", 0, 3600000, 999, 0⟩] =
          pre ++ ⟨1, "Home", 0, 3600000, 999, 0⟩ :: post ∧
        RecordNewPosition findOneFirst
            [⟨2, "Office", -5, -5, 0, 0⟩, ⟨1, "Home", 0, 3600000, 999, 0⟩] "Home"
            (some 7200000000999) 5 3 =
          some (pre ++ ⟨1, "Home", 0, 7200000, 7200000, 0⟩ :: post)) :=
  ⟨⟨long_stay_reachable 1,
     (reachable_documents_wellformed.1 [⟨1, "Home", 0, 10800000, 10800000, 0⟩]
        (long_stay_reachable 1) ⟨1, "Home", 0, 10800000, 10800000, 0⟩
        (List.mem_singleton.mpr rfl)).1,
     (reachable_documents_wellformed.1 [⟨1, "Home", 0, 10800000, 10800000, 0⟩]
        (long_stay_reachable 1) ⟨1, "Home", 0, 10800000, 10800000, 0⟩
        (List.mem_singleton.mpr rfl)).2.1,
     (reachable_documents_wellformed.1 [⟨1, "Home", 0, 10800000, 10800000, 0⟩]
        (long_stay_reachable 1) ⟨1, "Home", 0, 10800000, 10800000, 0⟩
        (List.mem_singleton.mpr rfl)).2.2 (by decide)⟩,
   (reachable_documents_wellformed.2 findOneFirst
      [⟨2, "Office", -5, -5, 0, 0⟩, ⟨1, "Home", 0, 3600000, 999, 0⟩]
      ⟨1, "Home", 0, 3600000, 999, 0⟩ "Home" 7200000000999 5 3
      findOneFirst_sorts (by decide) (by decide)
      ⟨1, 7200000000999, 7200000, by decide⟩).1,
   (reachable_documents_wellformed.2 findOneFirst
      [⟨2, "Office", -5, -5, 0, 0⟩, ⟨1, "Home", 0, 3600000, 999, 0⟩]
      ⟨1, "Home", 0, 3600000, 999, 0⟩ "Home" 7200000000999 5 3
      findOneFirst_sorts (by decide) (by decide)
      ⟨1, 7200000000999, 7200000, by decide⟩).2.1 (by decide),
   (reachable_documents_wellformed.2 findOneFirst
      [⟨2, "Office", -5, -5, 0, 0⟩, ⟨1, "Home", 0, 3600000, 999, 0⟩]
      ⟨1, "Home", 0, 3600000, 999, 0⟩ "Home" 7200000000999 5 3
      findOneFirst_sorts (by decide) (by decide)
      ⟨1, 7200000000999, 7200000, by decide⟩).2.2.1 123456,
   (reachable_documents_wellformed.2 findOneFirst
      [⟨2, "Office", -5, -5, 0, 0⟩, ⟨1, "Home", 0, 3600000, 999, 0⟩]
      ⟨1, "Home", 0, 3600000, 999, 0⟩ "Home" 7200000000999 5 3
      findOneFirst_sorts (by decide) (by decide)
      ⟨1, 7200000000999, 7200000, by decide⟩).2.2.2⟩

/-! ## Ordering of the reachable collections -/

theorem tied_collection_reachable :
    Reachable [⟨1, "Home", 0, 3600000, 3600000, 0⟩, ⟨2, "Office", 0, 7200000, 7200000, 0⟩] := by
  have h1 : Reachable [⟨1, "Home", 0, 0, 0, 0⟩] :=
    ReachableWhen.record findOneFirst "Home" (some 0) 0 1 ReachableWhen.empty trivial
      findOneFirst_sorts (by decide) (by decide)
  have h2 : Reachable [⟨1, "Home", 0, 0, 0, 0⟩, ⟨2, "Office", 0, 0, 0, 0⟩] :=
    ReachableWhen.record findOneFirst "Office" (some 0) 0 2 h1 trivial
      findOneFirst_sorts (by decide) (by decide)
  have h3 : Reachable [⟨1, "Home", 0, 3600000, 3600000, 0⟩, ⟨2, "Office", 0, 0, 0, 0⟩] :=
    ReachableWhen.record findOneFirst "Home" (some 3600000000000) 0 3 h2 trivial
      findOneFirst_sorts (by decide) (by decide)
  exact ReachableWhen.record findOneLast "Office" (some 7200000000000) 0 3 h3 trivial
    findOneLast_sorts (by decide) (by decide)

/-- C5 (counterexample): `Home` and `Office` are both observed at
1970-01-01T00:00:00Z, then `Home` at 01:00 and `Office` at 02:00.  The two
intervals share the maximal `startDate`; the sorted `FindOne` returns the
`Home` interval to the third call and the `Office` interval to the fourth, and
each is extended.  The collection then holds `Home` from 00:00 to 01:00 and
`Office` from 00:00 to 02:00, and in no order do its intervals form a sequence
in which each ends no later than the next starts. -/
theorem reachable_timeline_overlaps :
    Reachable [⟨1, "Home", 0, 3600000, 3600000, 0⟩, ⟨2, "Office", 0, 7200000, 7200000, 0⟩] ∧
      ¬ ∃ l : List Document,
        l.Perm [⟨1, "Home", 0, 3600000, 3600000, 0⟩, ⟨2, "Office", 0, 7200000, 7200000, 0⟩] ∧
        Timeline l := by
  refine ⟨tied_collection_reachable, ?_⟩
  rintro ⟨l, hperm, _, hchain⟩
  have hlen := hperm.length_eq
  match l, hlen with
  | [a, b], _ =>
    have ha : a ∈ [(⟨1, "Home", 0, 3600000, 3600000, 0⟩ : Document),
        ⟨2, "Office", 0, 7200000, 7200000, 0⟩] := hperm.subset (by simp)
    have hb : b ∈ [(⟨1, "Home", 0, 3600000, 3600000, 0⟩ : Document),
        ⟨2, "Office", 0, 7200000, 7200000, 0⟩] := hperm.subset (by simp)
    have hab : a.endDate ≤ b.startDate := by
      simpa [List.Chain'] using hchain
    simp only [List.mem_cons, List.mem_singleton, List.not_mem_nil, or_false] at ha hb
    rcases ha with rfl | rfl <;> rcases hb with rfl | rfl <;> simp at hab

theorem findOneFirst_split {docs : List Document} {p : Document}
    (h : findOneFirst docs = some p) :
    ∃ pre post, docs = pre ++ p :: post ∧ (∀ d ∈ pre, d.startDate < p.startDate) ∧
      ∀ d ∈ post, d.startDate ≤ p.startDate := by
  induction docs generalizing p with
  | nil => simp [findOneFirst] at h
  | cons d ds ih =>
    simp only [findOneFirst] at h
    cases he : findOneFirst ds with
    | none =>
      rw [he] at h
      simp only [Option.some.injEq] at h
      subst h
      have hnil : ds = [] := by
        have := findOneFirst_sorts ds
        rw [he] at this
        exact this
      subst hnil
      exact ⟨[], [], rfl, by simp, by simp⟩
    | some e =>
      rw [he] at h
      simp only at h
      obtain ⟨pre, post, hds, hpre, hpost⟩ := ih he
      have hmax := findOne_max findOneFirst_sorts he
      by_cases hlt : d.startDate < e.startDate
      · rw [if_pos hlt, Option.some.injEq] at h
        subst h
        refine ⟨d :: pre, post, by rw [hds]; rfl, ?_, hpost⟩
        intro x hx
        rcases List.mem_cons.mp hx with rfl | hx
        · exact hlt
        · exact hpre x hx
      · rw [if_neg hlt, Option.some.injEq] at h
        subst h
        refine ⟨[], ds, rfl, by simp, ?_⟩
        intro x hx
        have := hmax x hx
        omega

theorem stored_order_step {docs docs2 : List Document}
    (findOne : List Document → Option Document) (location : String) (timestamp : Option Int)
    (now : Int) (newId : Nat) (hok : EarliestOfTied findOne docs)
    (hrun : RecordNewPosition findOne docs location timestamp now newId = some docs2)
    (hids : (docs.map Document.id).Nodup)
    (hvalid : ∀ d ∈ docs, d.startDate ≤ d.endDate)
    (hpair : docs.Pairwise StoredBefore) :
    docs2.Pairwise StoredBefore := by
  cases timestamp with
  | none => simp [RecordNewPosition] at hrun
  | some T =>
    simp only [RecordNewPosition, Option.some.injEq] at hrun
    cases hw : chooseWrite (GetLastPosition findOne docs) location T now with
    | skip =>
      rw [hw] at hrun
      simp only [Write.run] at hrun
      subst hrun
      exact hpair
    | insertOne loc s e d f =>
      obtain ⟨h1, h2, h3, h4, h5⟩ := chooseWrite_insert_shape hw
      rw [hw] at hrun
      simp only [Write.run, InsertOne, h1, h2, h3, h4, h5] at hrun
      subst hrun
      rw [List.pairwise_append]
      refine ⟨hpair, List.pairwise_singleton _ _, ?_⟩
      intro a ha b hb
      simp only [List.mem_singleton] at hb
      subst hb
      cases hf : findOne docs with
      | none =>
        have hnil : findOneFirst docs = none := by rw [← hok, hf]
        have := findOneFirst_sorts docs
        rw [hnil] at this
        simp only at this
        subst this
        exact absurd ha (List.not_mem_nil a)
      | some I =>
        have hfirst : findOneFirst docs = some I := by rw [← hok, hf]
        obtain ⟨pre, post, hdocs, hpre, hpost⟩ := findOneFirst_split hfirst
        have hImem : I ∈ docs := by rw [hdocs]; simp
        have hIv : I.startDate ≤ I.endDate := hvalid I hImem
        have hnotafter : DateTime.Time I.endDate ≤ T := by
          by_contra hlt
          have hskip := chooseWrite_of_after I.Decode location T now (not_le.mp hlt)
          rw [GetLastPosition_of_findOne hf, hskip] at hw
          exact Write.noConfusion hw
        have hIle : I.endDate ≤ NewDateTimeFromTime T := by
          unfold DateTime.Time at hnotafter
          unfold NewDateTimeFromTime
          omega
        rw [hdocs, List.pairwise_append, List.pairwise_cons] at hpair
        obtain ⟨_, ⟨hIpost, _⟩, hprerest⟩ := hpair
        have hend : a.endDate ≤ NewDateTimeFromTime T ∧ a.startDate ≤ NewDateTimeFromTime T := by
          rw [hdocs] at ha
          rcases List.mem_append.mp ha with ha | ha
          · have hsb := hprerest a ha I (List.mem_cons_self _ _)
            have hlt := hpre a ha
            have := hsb.2.1 hlt
            constructor <;> omega
          · rcases List.mem_cons.mp ha with rfl | ha
            · constructor <;> omega
            · have hsb := hIpost a ha
              have hle := hpost a ha
              have heq : I.startDate = a.startDate := le_antisymm hsb.1 hle
              have := hsb.2.2 heq
              constructor <;> omega
        exact ⟨hend.2, fun _ => hend.1, fun _ => rfl⟩
    | updateOne id e d =>
      obtain ⟨last, hlast, hid, he, hd, _, hend, _⟩ := chooseWrite_update_shape hw
      obtain ⟨I, hI, hdec⟩ := GetLastPosition_eq_some hlast
      rw [hw] at hrun
      simp only [Write.run] at hrun
      subst hrun
      have hfirst : findOneFirst docs = some I := by rw [← hok, hI]
      obtain ⟨pre, post, hdocs, hpre, hpost⟩ := findOneFirst_split hfirst
      have hImem : I ∈ docs := by rw [hdocs]; simp
      have hpreid : ∀ x ∈ pre, x.id ≠ I.id := by
        intro x hx heq
        rw [hdocs, List.map_append, List.map_cons, List.nodup_append] at hids
        exact hids.2.2 (List.mem_map_of_mem _ hx) (by rw [heq]; exact List.mem_cons_self _ _)
      have hidI : id = I.id := by
        rw [hid, hdec]
        rfl
      rw [hdocs, hidI, UpdateOne_split pre post I hpreid]
      rw [hdocs, List.pairwise_append, List.pairwise_cons] at hpair
      obtain ⟨hprepair, ⟨hIpost, hpostpair⟩, hprerest⟩ := hpair
      rw [List.pairwise_append, List.pairwise_cons]
      refine ⟨hprepair, ⟨?_, hpostpair⟩, ?_⟩
      · intro y hy
        have hsb := hIpost y hy
        have hle := hpost y hy
        refine ⟨hsb.1, ?_, hsb.2.2⟩
        intro hlt
        exact absurd hlt (not_lt.mpr hle)
      · intro x hx y hy
        rcases List.mem_cons.mp hy with rfl | hy
        · have hsb := hprerest x hx I (List.mem_cons_self _ _)
          have hlt := hpre x hx
          exact ⟨hsb.1, fun _ => hsb.2.1 hlt, fun heq => absurd heq (ne_of_lt hlt)⟩
        · exact hprerest x hx y (List.mem_cons_of_mem _ hy)

theorem stored_order_invariant {docs : List Document}
    (h : ReachableWhen EarliestOfTied docs) : docs.Pairwise StoredBefore := by
  induction h with
  | empty => exact List.Pairwise.nil
  | record findOne location timestamp now newId hprev hok hfind hfresh hrun ih =>
    have hinv := reachable_invariant hprev
    exact stored_order_step findOne location timestamp now newId hok hrun
      hinv.1 (fun d hd => (hinv.2 d hd).1) ih

theorem others_end_before_latest {findOne : List Document → Option Document}
    {docs : List Document} {I : Document} (hfind : SortsByStartDateDesc findOne)
    (hI : findOne docs = some I) (hok : NeverPassesOverExtended findOne docs)
    (hvalid : ∀ d ∈ docs, d.startDate ≤ d.endDate) (hdis : NonOverlapping docs) :
    ∀ d ∈ docs, d ≠ I → d.endDate ≤ I.startDate := by
  intro d hd hne
  have hImem := findOne_mem hfind hI
  have hmax := findOne_max hfind hI d hd
  have hIv := hvalid I hImem
  have hdv := hvalid d hd
  rcases hdis d hd I hImem hne with h | h
  · exact h
  · have htied : d.startDate = I.startDate := by omega
    by_cases hext : d.startDate < d.endDate
    · exact absurd (hok I hI d hd htied hext) hne
    · omega

theorem non_overlapping_step {docs docs2 : List Document}
    (findOne : List Document → Option Document) (location : String) (timestamp : Option Int)
    (now : Int) (newId : Nat) (hfind : SortsByStartDateDesc findOne)
    (hok : NeverPassesOverExtended findOne docs)
    (hrun : RecordNewPosition findOne docs location timestamp now newId = some docs2)
    (hids : (docs.map Document.id).Nodup)
    (hvalid : ∀ d ∈ docs, d.startDate ≤ d.endDate)
    (hdis : NonOverlapping docs) :
    NonOverlapping docs2 := by
  cases timestamp with
  | none => simp [RecordNewPosition] at hrun
  | some T =>
    simp only [RecordNewPosition, Option.some.injEq] at hrun
    cases hw : chooseWrite (GetLastPosition findOne docs) location T now with
    | skip =>
      rw [hw] at hrun
      simp only [Write.run] at hrun
      subst hrun
      exact hdis
    | insertOne loc s e d f =>
      obtain ⟨h1, h2, h3, h4, h5⟩ := chooseWrite_insert_shape hw
      rw [hw] at hrun
      simp only [Write.run, InsertOne, h1, h2, h3, h4, h5] at hrun
      subst hrun
      have hkey : ∀ x ∈ docs, x.endDate ≤ NewDateTimeFromTime T := by
        intro x hx
        cases hf : findOne docs with
        | none =>
          have := hfind docs
          rw [hf] at this
          simp only at this
          subst this
          exact absurd hx (List.not_mem_nil x)
        | some I =>
          have hIv : I.startDate ≤ I.endDate := hvalid I (findOne_mem hfind hf)
          have hnotafter : DateTime.Time I.endDate ≤ T := by
            by_contra hlt
            have hskip := chooseWrite_of_after I.Decode location T now (not_le.mp hlt)
            rw [GetLastPosition_of_findOne hf, hskip] at hw
            exact Write.noConfusion hw
          have hIle : I.endDate ≤ NewDateTimeFromTime T := by
            unfold DateTime.Time at hnotafter
            unfold NewDateTimeFromTime
            omega
          by_cases hxI : x = I
          · rw [hxI]
            exact hIle
          · have := others_end_before_latest hfind hf hok hvalid hdis x hx hxI
            omega
      intro a ha b hb hab
      rcases List.mem_append.mp ha with ha | ha
      · rcases List.mem_append.mp hb with hb | hb
        · exact hdis a ha b hb hab
        · simp only [List.mem_singleton] at hb
          subst hb
          exact Or.inl (hkey a ha)
      · simp only [List.mem_singleton] at ha
        subst ha
        rcases List.mem_append.mp hb with hb | hb
        · exact Or.inr (hkey b hb)
        · simp only [List.mem_singleton] at hb
          exact absurd hb.symm hab
    | updateOne id e d =>
      obtain ⟨last, hlast, hid, he, hd, _, hend, _⟩ := chooseWrite_update_shape hw
      obtain ⟨I, hI, hdec⟩ := GetLastPosition_eq_some hlast
      rw [hw] at hrun
      simp only [Write.run] at hrun
      subst hrun
      have hImem := findOne_mem hfind hI
      obtain ⟨pre, post, hdocs, hpre, hpost⟩ := split_of_mem_nodup hImem hids
      have hidI : id = I.id := by
        rw [hid, hdec]
        rfl
      have hothers := others_end_before_latest hfind hI hok hvalid hdis
      have hrest : ∀ x ∈ pre ++ post, x ∈ docs ∧ x ≠ I := by
        intro x hx
        constructor
        · rw [hdocs]
          rcases List.mem_append.mp hx with h | h
          · exact List.mem_append_left _ h
          · exact List.mem_append_right _ (List.mem_cons_of_mem _ h)
        · intro heq
          rcases List.mem_append.mp hx with h | h
          · exact hpre x h (by rw [heq])
          · exact hpost x h (by rw [heq])
      have hmem2 : ∀ x ∈ pre ++ ⟨I.id, I.location, I.startDate, NewDateTimeFromTime e, d,
          I.fetchDate⟩ :: post,
          x = ⟨I.id, I.location, I.startDate, NewDateTimeFromTime e, d, I.fetchDate⟩ ∨
            x ∈ pre ++ post := by
        intro x hx
        rcases List.mem_append.mp hx with h | h
        · exact Or.inr (List.mem_append_left _ h)
        · rcases List.mem_cons.mp h with h | h
          · exact Or.inl h
          · exact Or.inr (List.mem_append_right _ h)
      rw [hidI, hdocs, UpdateOne_split pre post I hpre]
      intro a ha b hb hab
      rcases hmem2 a ha with ha | ha
      · rcases hmem2 b hb with hb | hb
        · exact absurd (ha.trans hb.symm) hab
        · obtain ⟨hbm, hbne⟩ := hrest b hb
          have := hothers b hbm hbne
          rw [ha]
          exact Or.inr this
      · obtain ⟨ham, hane⟩ := hrest a ha
        rcases hmem2 b hb with hb | hb
        · have := hothers a ham hane
          rw [hb]
          exact Or.inl this
        · obtain ⟨hbm, _⟩ := hrest b hb
          exact hdis a ham b hbm hab

theorem non_overlapping_invariant {docs : List Document}
    (h : ReachableWhen NeverPassesOverExtended docs) : NonOverlapping docs := by
  induction h with
  | empty =>
    intro a ha
    exact absurd ha (List.not_mem_nil a)
  | record findOne location timestamp now newId hprev hok hfind hfresh hrun ih =>
    have hinv := reachable_invariant hprev
    exact non_overlapping_step findOne location timestamp now newId hfind hok hrun
      hinv.1 (fun d hd => (hinv.2 d hd).1) ih

/-- The earliest-stored tie rule is one way of never passing over an extended
document. -/
theorem earliest_never_passes_over {docs : List Document}
    (h : ReachableWhen EarliestOfTied docs) : ReachableWhen NeverPassesOverExtended docs := by
  induction h with
  | empty => exact ReachableWhen.empty
  | record findOne location timestamp now newId hprev hok hfind hfresh hrun ih =>
    refine ReachableWhen.record findOne location timestamp now newId ih ?_ hfind hfresh hrun
    have hpair := stored_order_invariant hprev
    intro I hI d hd htied hext
    have hok2 := hok
    unfold EarliestOfTied at hok2
    rw [hI] at hok2
    obtain ⟨pre, post, hdocs, hpre, _⟩ := findOneFirst_split hok2.symm
    rw [hdocs, List.pairwise_append, List.pairwise_cons] at hpair
    obtain ⟨_, ⟨hIpost, _⟩, _⟩ := hpair
    rw [hdocs] at hd
    rcases List.mem_append.mp hd with hd | hd
    · have := hpre d hd
      omega
    · rcases List.mem_cons.mp hd with hd | hd
      · exact hd
      · have := (hIpost d hd).2.2 htied.symm
        omega

/-- C5 (amended): in every collection reachable from the empty one by calls of
`RecordNewPosition`, each served by a sorted `FindOne` that returns a document
of maximal `startDate`, any one of them when several tie except that it never
passes over a tied document that has already been extended (`endDate` after
`startDate`), no two intervals overlap, and the intervals can be ordered by
`startDate` so that each interval's `endDate` is at most the `startDate` of
the next one. -/
theorem reachable_timeline (docs : List Document)
    (hreach : ReachableWhen NeverPassesOverExtended docs) :
    NonOverlapping docs ∧ ∃ l : List Document, l.Perm docs ∧ Timeline l := by
  have hdisjoint := non_overlapping_invariant hreach
  have hinv := reachable_invariant hreach
  have hvalid : ∀ d ∈ docs, d.startDate ≤ d.endDate := fun d hd => (hinv.2 d hd).1
  have hnodup : docs.Nodup := List.Nodup.of_map _ hinv.1
  have hperm := List.perm_insertionSort startsBefore docs
  have hsorted : (docs.insertionSort startsBefore).Pairwise startsBefore :=
    List.sorted_insertionSort startsBefore docs
  have hnodup2 : (docs.insertionSort startsBefore).Pairwise (fun a b => a ≠ b) :=
    (hperm.nodup_iff).mpr hnodup
  have hall : (docs.insertionSort startsBefore).Pairwise
      (fun a b => a.startDate ≤ b.startDate ∧ a.endDate ≤ b.startDate) := by
    refine (hsorted.and hnodup2).imp_of_mem ?_
    intro a b ha hb hab
    obtain ⟨hlex, hne⟩ := hab
    have hamem := hperm.subset ha
    have hbmem := hperm.subset hb
    have hvb := hvalid b hbmem
    have hd := hdisjoint a hamem b hbmem hne
    unfold startsBefore at hlex
    constructor <;> omega
  refine ⟨hdisjoint, docs.insertionSort startsBefore, hperm, ?_, ?_⟩
  · exact hall.imp (fun h => h.1)
  · exact List.Pairwise.chain' (hall.imp (fun h => h.2))

theorem never_passes_over_of_eq {findOne : List Document → Option Document}
    {docs : List Document} {I : Document} (hI : findOne docs = some I)
    (h : ∀ d ∈ docs, d.startDate = I.startDate → d.startDate < d.endDate → d = I) :
    NeverPassesOverExtended findOne docs := by
  intro J hJ
  rw [hI] at hJ
  have hIJ : I = J := Option.some.inj hJ
  subst hIJ
  exact h

theorem latest_tied_example_reachable :
    ReachableWhen NeverPassesOverExtended
      [⟨1, "Home", 0, 0, 0, 0⟩, ⟨2, "Office", 0, 3600000, 3600000, 0⟩,
        ⟨3, "Home", 7200000, 7200000, 0, 0⟩] := by
  have h0 : NeverPassesOverExtended findOneFirst [] := by
    intro I hI
    exact Option.noConfusion hI
  have h1 : ReachableWhen NeverPassesOverExtended [⟨1, "Home", 0, 0, 0, 0⟩] :=
    ReachableWhen.record findOneFirst "Home" (some 0) 0 1 ReachableWhen.empty h0
      findOneFirst_sorts (by decide) (by decide)
  have h2 : ReachableWhen NeverPassesOverExtended
      [⟨1, "Home", 0, 0, 0, 0⟩, ⟨2, "Office", 0, 0, 0, 0⟩] :=
    ReachableWhen.record findOneFirst "Office" (some 0) 0 2 h1
      (never_passes_over_of_eq (I := ⟨1, "Home", 0, 0, 0, 0⟩) (by decide) (by decide))
      findOneFirst_sorts (by decide) (by decide)
  have h3 : ReachableWhen NeverPassesOverExtended
      [⟨1, "Home", 0, 0, 0, 0⟩, ⟨2, "Office", 0, 3600000, 3600000, 0⟩] :=
    ReachableWhen.record findOneLast "Office" (some 3600000000000) 0 3 h2
      (never_passes_over_of_eq (I := ⟨2, "Office", 0, 0, 0, 0⟩) (by decide) (by decide))
      findOneLast_sorts (by decide) (by decide)
  exact ReachableWhen.record findOneLast "Home" (some 7200000000000) 0 3 h3
    (never_passes_over_of_eq (I := ⟨2, "Office", 0, 3600000, 3600000, 0⟩) (by decide)
      (by decide))
    findOneLast_sorts (by decide) (by decide)

theorem reachable_timeline_witness :
    NonOverlapping [⟨1, "Home", 0, 0, 0, 0⟩, ⟨2, "Office", 0, 3600000, 3600000, 0⟩,
        ⟨3, "Home", 7200000, 7200000, 0, 0⟩] ∧
      ∃ l : List Document,
        l.Perm [⟨1, "Home", 0, 0, 0, 0⟩, ⟨2, "Office", 0, 3600000, 3600000, 0⟩,
          ⟨3, "Home", 7200000, 7200000, 0, 0⟩] ∧ Timeline l :=
  reachable_timeline _ latest_tied_example_reachable

/-! ## Rounding to `float64` is monotone -/

theorem roundTiesToEven_intCast (n : ℤ) : roundTiesToEven (n : ℚ) = n := by
  unfold roundTiesToEven
  simp

theorem floor_le_roundTiesToEven (x : ℚ) : ⌊x⌋ ≤ roundTiesToEven x := by
  unfold roundTiesToEven
  split_ifs <;> omega

theorem roundTiesToEven_le_floor_succ (x : ℚ) : roundTiesToEven x ≤ ⌊x⌋ + 1 := by
  unfold roundTiesToEven
  split_ifs <;> omega

theorem roundTiesToEven_mono {x y : ℚ} (h : x ≤ y) : roundTiesToEven x ≤ roundTiesToEven y := by
  have hf : ⌊x⌋ ≤ ⌊y⌋ := Int.floor_mono h
  rcases lt_or_eq_of_le hf with hlt | heq
  · calc roundTiesToEven x ≤ ⌊x⌋ + 1 := roundTiesToEven_le_floor_succ x
      _ ≤ ⌊y⌋ := hlt
      _ ≤ roundTiesToEven y := floor_le_roundTiesToEven y
  · unfold roundTiesToEven
    rw [← heq]
    split_ifs with h1 h2 h3 h4 h5 h6 h7 h8 <;> first | omega | (exfalso; linarith)

theorem roundTiesToEven_neg (x : ℚ) : roundTiesToEven (-x) = -roundTiesToEven x := by
  rcases eq_or_lt_of_le (Int.floor_le x) with hx | hx
  · rw [← hx, ← Int.cast_neg, roundTiesToEven_intCast, roundTiesToEven_intCast]
  · have hfl : ⌊-x⌋ = -⌊x⌋ - 1 := by
      rw [Int.floor_eq_iff]
      have := Int.lt_floor_add_one x
      push_cast
      constructor <;> linarith
    unfold roundTiesToEven
    rw [hfl]
    push_cast
    split_ifs <;> first | omega | (exfalso; linarith)


theorem ulp_pos (e : ℤ) : (0 : ℚ) < 2 ^ (e - 52) := zpow_pos (by norm_num) _

theorem zpow_split_high (e : ℤ) : (2 : ℚ) ^ (e + 1) = ((2 ^ 53 : ℤ) : ℚ) * 2 ^ (e - 52) := by
  rw [show e + 1 = 53 + (e - 52) by ring, zpow_add₀ (by norm_num : (2 : ℚ) ≠ 0)]
  norm_num

theorem zpow_split_low (e : ℤ) : (2 : ℚ) ^ e = ((2 ^ 52 : ℤ) : ℚ) * 2 ^ (e - 52) := by
  rw [show e = 52 + (e - 52) by ring, zpow_add₀ (by norm_num : (2 : ℚ) ≠ 0)]
  norm_num

theorem nearest_neg (q : ℚ) : Float64.nearest (-q) = -Float64.nearest q := by
  unfold Float64.nearest Float64.exponent
  rw [abs_neg, neg_div, roundTiesToEven_neg]
  push_cast
  ring

theorem nearest_nonneg {q : ℚ} (h : 0 ≤ q) : 0 ≤ Float64.nearest q := by
  unfold Float64.nearest
  have hu := ulp_pos (Float64.exponent q)
  have h0 : roundTiesToEven ((0 : ℤ) : ℚ) ≤ roundTiesToEven (q / 2 ^ (Float64.exponent q - 52)) :=
    roundTiesToEven_mono (by
      rw [Int.cast_zero]
      exact div_nonneg h hu.le)
  rw [roundTiesToEven_intCast] at h0
  exact mul_nonneg (by exact_mod_cast h0) hu.le

theorem nearest_le_of_lt_zpow {x : ℚ} (hx : 0 < x) :
    Float64.nearest x ≤ 2 ^ (Float64.exponent x + 1) := by
  have hu := ulp_pos (Float64.exponent x)
  have hlog : x < 2 ^ (Int.log 2 |x| + 1) := by
    have := Int.lt_zpow_succ_log_self (by norm_num : 1 < 2) |x|
    rw [abs_of_pos hx] at this ⊢
    simpa using this
  have hexp : (2 : ℚ) ^ (Int.log 2 |x| + 1) ≤ 2 ^ (Float64.exponent x + 1) :=
    zpow_le_zpow_right₀ (by norm_num) (by
      unfold Float64.exponent
      have := le_max_left (Int.log 2 |x|) (-1022)
      omega)
  have hx2 : x ≤ ((2 ^ 53 : ℤ) : ℚ) * 2 ^ (Float64.exponent x - 52) := by
    rw [← zpow_split_high]
    exact le_trans hlog.le hexp
  have hdiv : x / 2 ^ (Float64.exponent x - 52) ≤ ((2 ^ 53 : ℤ) : ℚ) := by
    rw [div_le_iff₀ hu]
    exact hx2
  have hr := roundTiesToEven_mono hdiv
  rw [roundTiesToEven_intCast] at hr
  unfold Float64.nearest
  rw [zpow_split_high]
  exact mul_le_mul_of_nonneg_right (by exact_mod_cast hr) hu.le

theorem zpow_le_nearest {y : ℚ} (hy : 0 < y) (he : -1022 < Float64.exponent y) :
    (2 : ℚ) ^ Float64.exponent y ≤ Float64.nearest y := by
  have hu := ulp_pos (Float64.exponent y)
  have hexp : Float64.exponent y = Int.log 2 |y| := by
    unfold Float64.exponent at he ⊢
    rcases le_total (Int.log 2 |y|) (-1022) with h | h
    · rw [max_eq_right h] at he
      omega
    · exact max_eq_left h
  have hlog : (2 : ℚ) ^ Float64.exponent y ≤ y := by
    rw [hexp]
    have := Int.zpow_log_le_self (by norm_num : 1 < 2) (abs_pos.mpr hy.ne')
    rw [abs_of_pos hy] at this ⊢
    simpa using this
  have hdiv : ((2 ^ 52 : ℤ) : ℚ) ≤ y / 2 ^ (Float64.exponent y - 52) := by
    rw [le_div_iff₀ hu, ← zpow_split_low]
    exact hlog
  have hr := roundTiesToEven_mono hdiv
  rw [roundTiesToEven_intCast] at hr
  unfold Float64.nearest
  rw [zpow_split_low (Float64.exponent y)]
  exact mul_le_mul_of_nonneg_right (by exact_mod_cast hr) hu.le

theorem nearest_mono_pos {x y : ℚ} (hx : 0 < x) (h : x ≤ y) :
    Float64.nearest x ≤ Float64.nearest y := by
  have hy : 0 < y := lt_of_lt_of_le hx h
  have hle : Float64.exponent x ≤ Float64.exponent y := by
    unfold Float64.exponent
    refine max_le_max ?_ le_rfl
    apply Int.log_mono_right (abs_pos.mpr hx.ne')
    rw [abs_of_pos hx, abs_of_pos hy]
    exact h
  rcases eq_or_lt_of_le hle with heq | hlt
  · unfold Float64.nearest
    rw [heq]
    have hu := ulp_pos (Float64.exponent y)
    exact mul_le_mul_of_nonneg_right
      (by exact_mod_cast roundTiesToEven_mono (div_le_div_of_nonneg_right h hu.le)) hu.le
  · have hlow : -1022 < Float64.exponent y := by
      have : -1022 ≤ Float64.exponent x := le_max_right _ _
      omega
    calc Float64.nearest x ≤ 2 ^ (Float64.exponent x + 1) := nearest_le_of_lt_zpow hx
      _ ≤ 2 ^ Float64.exponent y := zpow_le_zpow_right₀ (by norm_num) (by omega)
      _ ≤ Float64.nearest y := zpow_le_nearest hy hlow

theorem nearest_mono {x y : ℚ} (h : x ≤ y) : Float64.nearest x ≤ Float64.nearest y := by
  rcases lt_trichotomy 0 x with hx | hx | hx
  · exact nearest_mono_pos hx h
  · subst hx
    have h0 : Float64.nearest 0 ≤ 0 := by
      have := nearest_neg 0
      rw [neg_zero] at this
      linarith
    exact le_trans h0 (nearest_nonneg h)
  · rcases le_or_lt 0 y with hy | hy
    · have h1 : Float64.nearest x ≤ 0 := by
        have := nearest_nonneg (neg_nonneg.mpr hx.le)
        rw [nearest_neg] at this
        linarith
      exact le_trans h1 (nearest_nonneg hy)
    · have := nearest_mono_pos (neg_pos.mpr hy) (neg_le_neg h)
      rw [nearest_neg, nearest_neg] at this
      linarith


theorem nearest_nonpos {q : ℚ} (h : q ≤ 0) : Float64.nearest q ≤ 0 := by
  have := nearest_nonneg (neg_nonneg.mpr h)
  rw [nearest_neg] at this
  linarith

theorem lt_inf_false_of_lt {d x : Float64} (hd : Float64.lt d x = true) :
    Float64.lt d (Float64.inf false) = true := by
  cases d with
  | nan => simp [Float64.lt] at hd
  | inf s =>
    cases x with
    | nan => simp [Float64.lt] at hd
    | inf t =>
      simp only [Float64.lt, Bool.and_eq_true] at hd
      simp [Float64.lt, hd.1]
    | fin q =>
      simp only [Float64.lt] at hd
      simp [Float64.lt, hd]
  | fin q => simp [Float64.lt]

theorem lt_ofRat_mono {x y : ℚ} (h : x ≤ y) (d : Float64)
    (hd : Float64.lt d (Float64.ofRat x) = true) :
    Float64.lt d (Float64.ofRat y) = true := by
  have hn := nearest_mono h
  unfold Float64.ofRat at hd ⊢
  by_cases hy : (2 : ℚ) ^ (1024 : ℕ) ≤ |Float64.nearest y|
  · rw [if_pos hy]
    have hpos : (0 : ℚ) < 2 ^ (1024 : ℕ) := by positivity
    by_cases hx : (2 : ℚ) ^ (1024 : ℕ) ≤ |Float64.nearest x|
    · rw [if_pos hx] at hd
      have hx0 : ¬ x < 0 := by
        intro hneg
        have hdec : decide (x < 0) = true := decide_eq_true hneg
        rw [hdec] at hd
        cases d <;> simp [Float64.lt] at hd
      have hy0 : ¬ y < 0 := fun hneg => hx0 (lt_of_le_of_lt h hneg)
      rw [decide_eq_false hx0] at hd
      rw [decide_eq_false hy0]
      exact hd
    · rw [if_neg hx] at hd
      have hy0 : ¬ y < 0 := by
        intro hneg
        have hny := nearest_nonpos hneg.le
        rw [abs_of_nonpos hny] at hy
        apply hx
        rw [abs_of_nonpos (le_trans hn hny)]
        linarith
      rw [decide_eq_false hy0]
      exact lt_inf_false_of_lt hd
  · rw [if_neg hy]
    by_cases hx : (2 : ℚ) ^ (1024 : ℕ) ≤ |Float64.nearest x|
    · rw [if_pos hx] at hd
      exfalso
      have hx0 : ¬ x < 0 := by
        intro hneg
        have hdec : decide (x < 0) = true := decide_eq_true hneg
        rw [hdec] at hd
        cases d <;> simp [Float64.lt] at hd
      have hnx := nearest_nonneg (not_lt.mp hx0)
      rw [abs_of_nonneg hnx] at hx
      apply hy
      rw [abs_of_nonneg (le_trans hnx hn)]
      linarith
    · rw [if_neg hx] at hd
      cases d with
      | nan => simp [Float64.lt] at hd
      | inf s => simpa [Float64.lt] using hd
      | fin q =>
        simp only [Float64.lt, decide_eq_true_eq] at hd ⊢
        linarith

theorem lt_add_mono (d r a b : Float64) (hab : Float64.le a b = true)
    (hd : Float64.lt d (Float64.add r a) = true) :
    Float64.lt d (Float64.add r b) = true := by
  cases r with
  | nan => cases a <;> simp [Float64.add, Float64.lt] at hd <;> cases d <;> simp [Float64.lt] at hd
  | inf s =>
    cases a with
    | nan => simp [Float64.le] at hab
    | inf t =>
      cases b with
      | nan => simp [Float64.le] at hab
      | inf u =>
        cases s <;> cases t <;> cases u <;> cases d <;>
          simp_all [Float64.add, Float64.lt, Float64.le]
      | fin q =>
        cases s <;> cases t <;> cases d <;> simp_all [Float64.add, Float64.lt, Float64.le]
    | fin p =>
      cases b with
      | nan => simp [Float64.le] at hab
      | inf u =>
        cases s <;> cases u <;> cases d <;> simp_all [Float64.add, Float64.lt, Float64.le]
      | fin q => simpa [Float64.add] using hd
  | fin c =>
    cases a with
    | nan => simp [Float64.le] at hab
    | inf t =>
      cases b with
      | nan => simp [Float64.le] at hab
      | inf u =>
        cases t <;> cases u <;> cases d <;> simp_all [Float64.add, Float64.lt, Float64.le]
      | fin q =>
        cases t <;> cases d <;> simp_all [Float64.add, Float64.lt, Float64.le]
    | fin p =>
      cases b with
      | nan => simp [Float64.le] at hab
      | inf u =>
        cases u
        · simp only [Float64.add]
          exact lt_inf_false_of_lt hd
        · simp [Float64.le] at hab
      | fin q =>
        simp only [Float64.le, decide_eq_true_eq] at hab
        simp only [Float64.add] at hd ⊢
        exact lt_ofRat_mono (by linarith) d hd

/-! ## `MatchLocation` -/

theorem MatchLocation_split (haversine : Coord → Coord → Float64 × Float64)
    (lat lon acc : Float64) (pre : List Place) (P : Place) (post : List Place)
    (hpre : ∀ Q ∈ pre, Qualifies haversine lat lon acc Q = false)
    (hP : Qualifies haversine lat lon acc P = true) :
    MatchLocation haversine lat lon acc (pre ++ P :: post) = P.Name := by
  induction pre with
  | nil =>
    unfold Qualifies at hP
    simp [MatchLocation, hP]
  | cons Q Qs ih =>
    have hQ := hpre Q (List.mem_cons_self _ _)
    unfold Qualifies at hQ
    have hQs : ∀ R ∈ Qs, Qualifies haversine lat lon acc R = false :=
      fun R hR => hpre R (List.mem_cons_of_mem _ hR)
    simp [MatchLocation, hQ, ih hQs]

theorem MatchLocation_none (haversine : Coord → Coord → Float64 × Float64)
    (lat lon acc : Float64) (places : List Place)
    (hnone : ∀ Q ∈ places, Qualifies haversine lat lon acc Q = false) :
    MatchLocation haversine lat lon acc places = "World" := by
  induction places with
  | nil => rfl
  | cons Q Qs ih =>
    have hQ := hnone Q (List.mem_cons_self _ _)
    unfold Qualifies at hQ
    have hQs : ∀ R ∈ Qs, Qualifies haversine lat lon acc R = false :=
      fun R hR => hnone R (List.mem_cons_of_mem _ hR)
    simp [MatchLocation, hQ, ih hQs]

/-- C4: for every catalog, coordinate and accuracy, and whatever the distance
function, `MatchLocation` returns the name of the first place of the catalog
whose distance to the coordinate is strictly less than its radius plus the
accuracy, whatever places come after it; it returns `"World"` when no place
of the catalog passes that test, in particular on the empty catalog. -/
theorem MatchLocation_first_match (haversine : Coord → Coord → Float64 × Float64)
    (lat lon acc : Float64) (places : List Place) :
    (∀ (pre : List Place) (P : Place) (post : List Place), places = pre ++ P :: post →
      (∀ Q ∈ pre, Qualifies haversine lat lon acc Q = false) →
      Qualifies haversine lat lon acc P = true →
      MatchLocation haversine lat lon acc places = P.Name) ∧
    ((∀ Q ∈ places, Qualifies haversine lat lon acc Q = false) →
      MatchLocation haversine lat lon acc places = "World") ∧
    MatchLocation haversine lat lon acc [] = "World" := by
  refine ⟨?_, ?_, rfl⟩
  · intro pre P post hsplit hpre hP
    rw [hsplit]
    exact MatchLocation_split haversine lat lon acc pre P post hpre hP
  · intro hnone
    exact MatchLocation_none haversine lat lon acc places hnone

/-! ## Accuracy -/

theorem Qualifies_mono (haversine : Coord → Coord → Float64 × Float64)
    (lat lon a b : Float64) (hab : Float64.le a b = true) (Q : Place)
    (hQ : Qualifies haversine lat lon a Q = true) : Qualifies haversine lat lon b Q = true := by
  unfold Qualifies at hQ ⊢
  exact lt_add_mono _ _ a b hab hQ

theorem first_true_split {α : Type} (p : α → Bool) (l : List α) (h : ∃ x ∈ l, p x = true) :
    ∃ pre x post, l = pre ++ x :: post ∧ (∀ y ∈ pre, p y = false) ∧ p x = true := by
  induction l with
  | nil =>
    obtain ⟨x, hx, _⟩ := h
    exact absurd hx (List.not_mem_nil x)
  | cons y ys ih =>
    by_cases hy : p y = true
    · exact ⟨[], y, ys, rfl, by simp, hy⟩
    · have hys : ∃ x ∈ ys, p x = true := by
        obtain ⟨x, hx, hpx⟩ := h
        rcases List.mem_cons.mp hx with rfl | hx
        · exact absurd hpx hy
        · exact ⟨x, hx, hpx⟩
      obtain ⟨pre, x, post, hsplit, hpre, hx⟩ := ih hys
      refine ⟨y :: pre, x, post, by rw [hsplit]; rfl, ?_, hx⟩
      intro z hz
      rcases List.mem_cons.mp hz with rfl | hz
      · simpa using hy
      · exact hpre z hz

/-- C9: for every catalog, coordinate and accuracies `a ≤ b`, if a place
passes the test of `MatchLocation` at accuracy `a`, so that `MatchLocation`
returns the name of the first such place `P`, then a place passes it at `b`
as well, and the place `P2` whose name `MatchLocation` returns at `b` stands at
the same or an earlier position of the catalog than `P`.  Equivalently, when
no place passes at `b`, none passes at `a`, and both calls return `"World"`. -/
theorem MatchLocation_monotone_in_accuracy (haversine : Coord → Coord → Float64 × Float64)
    (lat lon a b : Float64) (places : List Place) (hab : Float64.le a b = true) :
    (∀ (pre : List Place) (P : Place) (post : List Place), places = pre ++ P :: post →
      (∀ Q ∈ pre, Qualifies haversine lat lon a Q = false) →
      Qualifies haversine lat lon a P = true →
      MatchLocation haversine lat lon a places = P.Name ∧
      ∃ (pre2 : List Place) (P2 : Place) (post2 : List Place),
        places = pre2 ++ P2 :: post2 ∧
        (∀ Q ∈ pre2, Qualifies haversine lat lon b Q = false) ∧
        Qualifies haversine lat lon b P2 = true ∧
        MatchLocation haversine lat lon b places = P2.Name ∧
        pre2.length ≤ pre.length) ∧
    ((∀ Q ∈ places, Qualifies haversine lat lon b Q = false) →
      (∀ Q ∈ places, Qualifies haversine lat lon a Q = false) ∧
      MatchLocation haversine lat lon a places = "World" ∧
      MatchLocation haversine lat lon b places = "World") := by
  constructor
  · intro pre P post hsplit hpre hP
    refine ⟨by rw [hsplit]; exact MatchLocation_split haversine lat lon a pre P post hpre hP, ?_⟩
    have hPb := Qualifies_mono haversine lat lon a b hab P hP
    obtain ⟨pre2, P2, rest, hsplit2, hpre2, hP2⟩ :=
      first_true_split (Qualifies haversine lat lon b) (pre ++ [P]) ⟨P, by simp, hPb⟩
    have hplaces : places = pre2 ++ P2 :: (rest ++ post) := by
      rw [hsplit, show pre ++ P :: post = (pre ++ [P]) ++ post by simp, hsplit2]
      simp
    refine ⟨pre2, P2, rest ++ post, hplaces, hpre2, hP2, ?_, ?_⟩
    · rw [hplaces]
      exact MatchLocation_split haversine lat lon b pre2 P2 (rest ++ post) hpre2 hP2
    · have hlen := congrArg List.length hsplit2
      simp only [List.length_append, List.length_cons, List.length_nil] at hlen
      omega
  · intro hnone
    have hnoneA : ∀ Q ∈ places, Qualifies haversine lat lon a Q = false := by
      intro Q hQ
      by_contra hq
      have hqa : Qualifies haversine lat lon a Q = true := by simpa using hq
      have := Qualifies_mono haversine lat lon a b hab Q hqa
      rw [hnone Q hQ] at this
      exact Bool.noConfusion this
    exact ⟨hnoneA, MatchLocation_none haversine lat lon a places hnoneA,
      MatchLocation_none haversine lat lon b places hnone⟩

/-! ## The `POST /log` handler -/

/-- C8: for every request whose `lat`, `lon` and `acc` parse as numbers and
whose `acc` is greater than 70, whatever the catalog, the coordinates and the
`time` parameter (well formed or not), the handler answers 200, does not call
`RecordNewPosition`, and leaves the database as it was: no interval is
created or modified. -/
theorem logHandler_drops_inaccurate (ParseFloat : String → Option Float64)
    (Parse : String → Option Int) (haversine : Coord → Coord → Float64 × Float64)
    (findOne : List Document → Option Document) (places : List Place)
    (now fetched : Int) (newId : Nat) (db : Database) (c : Request)
    (lat lon acc : Float64) (hlat : ParseFloat c.lat = some lat)
    (hlon : ParseFloat c.lon = some lon) (hacc : ParseFloat c.acc = some acc)
    (h70 : Float64.lt (Float64.fin 70) acc = true) :
    logHandler ParseFloat Parse haversine findOne places now fetched newId db c =
      ⟨⟨200, ""⟩, db, false⟩ := by
  unfold logHandler
  rw [hlat, hlon, hacc]
  simp only
  rw [if_pos h70]

/-! ## Small integers are exact -/

theorem nearest_natCast (n : ℕ) (h : n < 2 ^ 53) : Float64.nearest (n : ℚ) = n := by
  rcases Nat.eq_zero_or_pos n with rfl | hpos
  · have := nearest_neg 0
    rw [neg_zero] at this
    rw [Nat.cast_zero]
    linarith
  · have hlog : Nat.log 2 n < 53 := Nat.log_lt_of_lt_pow hpos.ne' h
    have hexp : Float64.exponent (n : ℚ) = (Nat.log 2 n : ℤ) := by
      unfold Float64.exponent
      rw [abs_of_nonneg (Nat.cast_nonneg n), Int.log_natCast]
      exact max_eq_left (by omega)
    have hu : (2 : ℚ) ^ ((Nat.log 2 n : ℤ) - 52) = (((2 ^ (52 - Nat.log 2 n) : ℕ) : ℤ) : ℚ)⁻¹ := by
      rw [show ((Nat.log 2 n : ℤ) - 52) = -((52 - Nat.log 2 n : ℕ) : ℤ) by omega, zpow_neg,
        zpow_natCast]
      push_cast
      rfl
    have hk : ((((2 ^ (52 - Nat.log 2 n) : ℕ) : ℤ) : ℚ)) ≠ 0 := by
      push_cast
      positivity
    unfold Float64.nearest
    rw [hexp, hu, div_inv_eq_mul]
    rw [show (n : ℚ) * (((2 ^ (52 - Nat.log 2 n) : ℕ) : ℤ) : ℚ) =
      (((n * 2 ^ (52 - Nat.log 2 n) : ℕ) : ℤ) : ℚ) by push_cast; rfl]
    rw [roundTiesToEven_intCast]
    push_cast
    field_simp

theorem ofRat_natCast (n : ℕ) (h : n < 2 ^ 53) : Float64.ofRat (n : ℚ) = Float64.fin n := by
  unfold Float64.ofRat
  rw [nearest_natCast n h, if_neg]
  rw [not_le, abs_of_nonneg (Nat.cast_nonneg n)]
  have h1 : (n : ℚ) < (2 : ℚ) ^ (53 : ℕ) := by exact_mod_cast h
  have h2 : (2 : ℚ) ^ (53 : ℕ) ≤ (2 : ℚ) ^ (1024 : ℕ) :=
    pow_le_pow_right₀ one_le_two (Nat.le_of_ble_eq_true rfl)
  exact lt_of_lt_of_le h1 h2

/-! ## Examples -/

theorem ofRat_eval (n : ℕ) (h : n < 2 ^ 53) (q : ℚ) (hq : q = n) :
    Float64.ofRat q = Float64.fin q := by
  rw [hq]
  exact ofRat_natCast n h

theorem mul_fin_fin (a b : ℚ) :
    Float64.mul (Float64.fin a) (Float64.fin b) = Float64.ofRat (a * b) := rfl

theorem add_fin_fin (a b : ℚ) :
    Float64.add (Float64.fin a) (Float64.fin b) = Float64.ofRat (a + b) := rfl

theorem lt_fin_fin (a b : ℚ) :
    Float64.lt (Float64.fin a) (Float64.fin b) = decide (a < b) := rfl

theorem example_far (acc : ℚ) (n : ℕ) (hn : n < 2 ^ 53) (hq : 50 + acc = n)
    (hfar : ¬ (5000 : ℚ) < 50 + acc) :
    Qualifies exampleHaversine (Float64.fin 10) (Float64.fin 10) (Float64.fin acc)
      ⟨⟨Float64.fin 20, Float64.fin 10⟩, Float64.fin 50, "Far"⟩ = false := by
  have h20 : ¬ ((20 : ℚ) = 10) := by norm_num
  have h5 : (5000 : ℕ) < 2 ^ 53 := by norm_num
  have h6 : (1000 * 5 : ℚ) = ((5000 : ℕ) : ℚ) := by norm_num
  have h1 : Float64.ofRat (1000 * 5) = Float64.fin (1000 * 5) :=
    ofRat_eval 5000 h5 (1000 * 5) h6
  have h2 : Float64.ofRat (50 + acc) = Float64.fin (50 + acc) :=
    ofRat_eval n hn (50 + acc) hq
  simp only [Qualifies, Distance, exampleHaversine, Float64.fin.injEq, h20, if_false,
    mul_fin_fin, add_fin_fin, h1, h2, lt_fin_fin, decide_eq_false_iff_not]
  norm_num at hfar ⊢
  exact hfar

theorem example_near (radius acc : ℚ) (name : String) (n : ℕ) (hn : n < 2 ^ 53)
    (hq : radius + acc = n) (hnear : (0 : ℚ) < radius + acc) :
    Qualifies exampleHaversine (Float64.fin 10) (Float64.fin 10) (Float64.fin acc)
      ⟨⟨Float64.fin 10, Float64.fin 10⟩, Float64.fin radius, name⟩ = true := by
  have h5 : (0 : ℕ) < 2 ^ 53 := by norm_num
  have h6 : (1000 * 0 : ℚ) = ((0 : ℕ) : ℚ) := by norm_num
  have h1 : Float64.ofRat (1000 * 0) = Float64.fin (1000 * 0) :=
    ofRat_eval 0 h5 (1000 * 0) h6
  have h2 : Float64.ofRat (radius + acc) = Float64.fin (radius + acc) :=
    ofRat_eval n hn (radius + acc) hq
  simp only [Qualifies, Distance, exampleHaversine, if_true,
    mul_fin_fin, add_fin_fin, h1, h2, lt_fin_fin, decide_eq_true_eq]
  norm_num
  exact hnear

theorem MatchLocation_first_match_witness :
    MatchLocation exampleHaversine (Float64.fin 10) (Float64.fin 10) (Float64.fin 20)
        exampleCatalog = "Home" ∧
      MatchLocation exampleHaversine (Float64.fin 10) (Float64.fin 10) (Float64.fin 20)
        [⟨⟨Float64.fin 20, Float64.fin 10⟩, Float64.fin 50, "Far"⟩] = "World" :=
  ⟨(MatchLocation_first_match exampleHaversine (Float64.fin 10) (Float64.fin 10)
      (Float64.fin 20) exampleCatalog).1
      [⟨⟨Float64.fin 20, Float64.fin 10⟩, Float64.fin 50, "Far"⟩]
      ⟨⟨Float64.fin 10, Float64.fin 10⟩, Float64.fin 50, "Home"⟩
      [⟨⟨Float64.fin 10, Float64.fin 10⟩, Float64.fin 100, "Big"⟩] rfl
      (by
        intro Q hQ
        rw [List.mem_singleton] at hQ
        rw [hQ]
        exact example_far 20 70 (by norm_num) (by norm_num) (by norm_num))
      (example_near 50 20 "Home" 70 (by norm_num) (by norm_num) (by norm_num)),
   (MatchLocation_first_match exampleHaversine (Float64.fin 10) (Float64.fin 10)
      (Float64.fin 20) [⟨⟨Float64.fin 20, Float64.fin 10⟩, Float64.fin 50, "Far"⟩]).2.1
      (by
        intro Q hQ
        rw [List.mem_singleton] at hQ
        rw [hQ]
        exact example_far 20 70 (by norm_num) (by norm_num) (by norm_num))⟩

theorem le_fin_fin (a b : ℚ) :
    Float64.le (Float64.fin a) (Float64.fin b) = decide (a ≤ b) := rfl

theorem MatchLocation_monotone_in_accuracy_witness :
    MatchLocation exampleHaversine (Float64.fin 10) (Float64.fin 10) (Float64.fin 20)
        exampleCatalog = "Home" ∧
      ∃ (pre2 : List Place) (P2 : Place) (post2 : List Place),
        exampleCatalog = pre2 ++ P2 :: post2 ∧
        (∀ Q ∈ pre2, Qualifies exampleHaversine (Float64.fin 10) (Float64.fin 10)
          (Float64.fin 5000) Q = false) ∧
        Qualifies exampleHaversine (Float64.fin 10) (Float64.fin 10) (Float64.fin 5000) P2 =
          true ∧
        MatchLocation exampleHaversine (Float64.fin 10) (Float64.fin 10) (Float64.fin 5000)
          exampleCatalog = P2.Name ∧
        pre2.length ≤
          [(⟨⟨Float64.fin 20, Float64.fin 10⟩, Float64.fin 50, "Far"⟩ : Place)].length :=
  (MatchLocation_monotone_in_accuracy exampleHaversine (Float64.fin 10) (Float64.fin 10)
    (Float64.fin 20) (Float64.fin 5000) exampleCatalog
    ((le_fin_fin 20 5000).trans (decide_eq_true (by norm_num)))).1
    [⟨⟨Float64.fin 20, Float64.fin 10⟩, Float64.fin 50, "Far"⟩]
    ⟨⟨Float64.fin 10, Float64.fin 10⟩, Float64.fin 50, "Home"⟩
    [⟨⟨Float64.fin 10, Float64.fin 10⟩, Float64.fin 100, "Big"⟩] rfl
    (by
      intro Q hQ
      rw [List.mem_singleton] at hQ
      rw [hQ]
      exact example_far 20 70 (by norm_num) (by norm_num) (by norm_num))
    (example_near 50 20 "Home" 70 (by norm_num) (by norm_num) (by norm_num))

theorem logHandler_drops_inaccurate_witness :
    logHandler (fun _ => some (Float64.fin 71)) (fun _ => none) exampleHaversine findOneFirst
        exampleCatalog 0 0 1 ⟨[⟨1, "Home", 0, 3600000, 3600000, 0⟩], none⟩
        ⟨"10", "10", "71", "yesterday"⟩ =
      ⟨⟨200, ""⟩, ⟨[⟨1, "Home", 0, 3600000, 3600000, 0⟩], none⟩, false⟩ :=
  logHandler_drops_inaccurate (fun _ => some (Float64.fin 71)) (fun _ => none)
    exampleHaversine findOneFirst exampleCatalog 0 0 1
    ⟨[⟨1, "Home", 0, 3600000, 3600000, 0⟩], none⟩ ⟨"10", "10", "71", "yesterday"⟩
    (Float64.fin 71) (Float64.fin 71) (Float64.fin 71) rfl rfl rfl
    ((lt_fin_fin 70 71).trans (decide_eq_true (by norm_num)))

end LocationTracker
